import Mathlib

/-!
# Utilities: array helpers of `src/array.js`

A shallow embedding of the array utility module and a verification of its
documented behaviour, with `getDaysDifference` of `src/date.js` and
`reverseString`, `isPalindrome` of `src/string.js`.

## Data model

* `JSNum` – JavaScript numbers in exact arithmetic: the finite values are
  rationals (`fin q`, with `fin 0` standing for `+0`), and the four special
  values `NaN`, `-Infinity`, `+Infinity` and `-0` are kept apart because the
  platform operations the module calls (`Set`, `indexOf`, `includes`,
  `Math.max`, `Math.min`, `+`, `/`) treat them specially.
* `Prim` – every JavaScript value that is not an array: the primitives and
  references to non-array objects (compared by identity).
* `JSVal` – a value: a non-array value or an array, which has an identity
  (`ref`) and holds its elements (arrays are dense and finite).
* `Arg α` – what a caller may pass where an array with elements in `α` is
  expected: such an array, or a value for which `Array.isArray` is false.
* `DateValue` – the date that `new Date(x)` builds: its time value in
  milliseconds, or the invalid date.
* `StrArg` – what a caller may pass where a string is expected: a string, as
  the list of its UTF-16 code units, or a value that is not a string.
-/

namespace Utilities

/-- JavaScript numbers, exact arithmetic on the finite ones. `fin 0` is `+0`. -/
inductive JSNum where
  | nan
  | negInf
  | posInf
  | negZero
  | fin (q : ℚ)
  deriving DecidableEq

/-- The values for which `Array.isArray` is false. -/
inductive Prim where
  | undefined
  | null
  | bool (b : Bool)
  | num (n : JSNum)
  | str (s : String)
  | obj (ref : Nat)
  deriving DecidableEq

/-- JavaScript values; an array carries its identity and its elements. -/
inductive JSVal where
  | prim (p : Prim)
  | arr (ref : Nat) (items : List JSVal)

/-- An argument passed where an array of `α` is expected. -/
inductive Arg (α : Type) where
  | array (items : List α)
  | nonArray (p : Prim)

/-- The errors the module throws. -/
inductive JSError where
  | typeError (msg : String)
  deriving DecidableEq

/-- Shorthand for the number value `q`. -/
def JSVal.ofRat (q : ℚ) : JSVal := .prim (.num (.fin q))

/-- Shorthand for a string value. -/
def JSVal.ofStr (s : String) : JSVal := .prim (.str s)

/-- The value `NaN`. -/
def JSVal.NaN : JSVal := .prim (.num .nan)

/-- The value `-0`. -/
def JSVal.minusZero : JSVal := .prim (.num .negZero)

/-! ## Equality algorithms of the platform -/

/-- `Number::equal`: `NaN` equals nothing, `+0` and `-0` are equal. -/
def JSNum.equal : JSNum → JSNum → Bool
  | .nan, _ => false
  | _, .nan => false
  | .negZero, .negZero => true
  | .negZero, .fin q => decide (q = 0)
  | .fin q, .negZero => decide (q = 0)
  | x, y => decide (x = y)

/-- `Number::sameValueZero`: as `equal`, but `NaN` is the same as `NaN`. -/
def JSNum.sameValueZero : JSNum → JSNum → Bool
  | .nan, .nan => true
  | x, y => JSNum.equal x y

/-- `IsStrictlyEqual` (`===`) on non-array values. -/
def Prim.strictEq : Prim → Prim → Bool
  | .num x, .num y => JSNum.equal x y
  | .num _, _ => false
  | _, .num _ => false
  | x, y => decide (x = y)

/-- `SameValueZero` on non-array values. -/
def Prim.sameValueZero : Prim → Prim → Bool
  | .num x, .num y => JSNum.sameValueZero x y
  | .num _, _ => false
  | _, .num _ => false
  | x, y => decide (x = y)

/-- `IsStrictlyEqual` (`===`): arrays are equal when they are the same object. -/
def strictEq : JSVal → JSVal → Bool
  | .prim p, .prim q => Prim.strictEq p q
  | .arr r _, .arr r' _ => decide (r = r')
  | _, _ => false

/-- `SameValueZero`: arrays are the same when they are the same object. -/
def sameValueZero : JSVal → JSVal → Bool
  | .prim p, .prim q => Prim.sameValueZero p q
  | .arr r _, .arr r' _ => decide (r = r')
  | _, _ => false

/-! ## `Set` -/

/-- `CanonicalizeKeyedCollectionKey`: a `Set` stores `-0` as `+0`. -/
def canonicalizeKey : JSVal → JSVal
  | .prim (.num .negZero) => .prim (.num (.fin 0))
  | v => v

/-- `Set.prototype.add` on the insertion-ordered list of entries. -/
def setAdd (entries : List JSVal) (value : JSVal) : List JSVal :=
  let value := canonicalizeKey value
  if entries.any (fun e => sameValueZero e value) then entries else entries ++ [value]

/-- The entries of `new Set(arr)`, in insertion order: `add` is called on every
element of `arr` from left to right. -/
def newSet : List JSVal → List JSVal → List JSVal
  | entries, [] => entries
  | entries, x :: rest => newSet (setAdd entries x) rest

/-- `removeDuplicates` (array.js:16): `[...new Set(arr)]`. -/
def removeDuplicates : Arg JSVal → Except JSError (List JSVal)
  | .nonArray _ => .error (.typeError "Input must be an array")
  | .array arr => .ok (newSet [] arr)

/-! ## `indexOf`, `includes`, `filter` -/

/-- The loop of `Array.prototype.indexOf`: the first index at or after `k` whose
element is strictly equal to `searchElement`, or `-1`. -/
def indexOfFrom (searchElement : JSVal) : List JSVal → Nat → Int
  | [], _ => -1
  | element :: rest, k =>
    if strictEq searchElement element then (k : Int) else indexOfFrom searchElement rest (k + 1)

/-- `arr.indexOf(searchElement)`. -/
def indexOf (arr : List JSVal) (searchElement : JSVal) : Int :=
  indexOfFrom searchElement arr 0

/-- `arr.includes(searchElement)`: some element is `SameValueZero` to it. -/
def includes : List JSVal → JSVal → Bool
  | [], _ => false
  | element :: rest, searchElement =>
    if sameValueZero element searchElement then true else includes rest searchElement

/-- The loop of `Array.prototype.filter` from index `k` on: the callback receives
the element and its index, kept elements are appended in order. -/
def filterFrom {α : Type} (callback : α → Nat → Bool) : List α → Nat → List α
  | [], _ => []
  | item :: rest, k =>
    if callback item k then item :: filterFrom callback rest (k + 1)
    else filterFrom callback rest (k + 1)

/-- `arr.filter(callback)`. -/
def jsFilter {α : Type} (callback : α → Nat → Bool) (arr : List α) : List α :=
  filterFrom callback arr 0

/-- `uniqueArray` (array.js:179):
`arr.filter((item, index) => arr.indexOf(item) === index)`. -/
def uniqueArray : Arg JSVal → Except JSError (List JSVal)
  | .nonArray _ => .error (.typeError "Input must be an array")
  | .array arr => .ok (jsFilter (fun item index => decide (indexOf arr item = (index : Int))) arr)

/-- `arrayDifference` (array.js:202): `arr1.filter(item => !arr2.includes(item))`. -/
def arrayDifference : Arg JSVal → Arg JSVal → Except JSError (List JSVal)
  | .array arr1, .array arr2 => .ok (jsFilter (fun item _ => !(includes arr2 item)) arr1)
  | _, _ => .error (.typeError "Both inputs must be arrays")

/-! ## `flat` -/

/-- The depth argument of `flat`: a number of levels, or `Infinity`. -/
inductive Depth where
  | finite (n : Nat)
  | infinity

/-- The test `depth > 0`. -/
def Depth.pos : Depth → Bool
  | .finite n => decide (0 < n)
  | .infinity => true

/-- The depth for the elements of a nested array: `depth - 1`, and `Infinity` stays. -/
def Depth.pred : Depth → Depth
  | .finite n => .finite (n - 1)
  | .infinity => .infinity

mutual
/-- `FlattenIntoArray(target, source, depth)`: every element of `source` is
handled in order; the new `target` is returned. -/
def flattenIntoArray (depth : Depth) : List JSVal → List JSVal → List JSVal
  | target, [] => target
  | target, element :: rest =>
    flattenIntoArray depth (flattenElement depth target element) rest
/-- One step of `FlattenIntoArray`: an array is flattened into `target` when
`depth > 0`, any other element is appended. -/
def flattenElement (depth : Depth) : List JSVal → JSVal → List JSVal
  | target, .arr ref items =>
    if depth.pos then flattenIntoArray depth.pred target items
    else target ++ [.arr ref items]
  | target, .prim p => target ++ [.prim p]
end

/-- `flattenArray` (array.js:38): `arr.flat(Infinity)`. -/
def flattenArray : Arg JSVal → Except JSError (List JSVal)
  | .nonArray _ => .error (.typeError "Input must be an array")
  | .array arr => .ok (flattenIntoArray .infinity [] arr)

/-- `Array.isArray`. -/
def isArray : JSVal → Bool
  | .arr _ _ => true
  | .prim _ => false

/-! ## Number operations -/

/-- The sign of a number: true for `-Infinity`, `-0` and the negative rationals. -/
def JSNum.isNeg : JSNum → Bool
  | .negInf => true
  | .negZero => true
  | .fin q => decide (q < 0)
  | _ => false

/-- True for `+0` and `-0`. -/
def JSNum.isZero : JSNum → Bool
  | .negZero => true
  | .fin q => decide (q = 0)
  | _ => false

/-- True for `+Infinity` and `-Infinity`. -/
def JSNum.isInf : JSNum → Bool
  | .negInf => true
  | .posInf => true
  | _ => false

/-- The rational value of a finite number (`0` for both zeros). -/
def JSNum.toRat : JSNum → ℚ
  | .fin q => q
  | _ => 0

/-- The zero of the given sign. -/
def JSNum.signedZero (neg : Bool) : JSNum := if neg then .negZero else .fin 0

/-- The infinity of the given sign. -/
def JSNum.signedInf (neg : Bool) : JSNum := if neg then .negInf else .posInf

/-- `Number::add`, the `+` of two numbers. -/
def jsAdd : JSNum → JSNum → JSNum
  | .nan, _ => .nan
  | _, .nan => .nan
  | .posInf, .negInf => .nan
  | .negInf, .posInf => .nan
  | .posInf, _ => .posInf
  | _, .posInf => .posInf
  | .negInf, _ => .negInf
  | _, .negInf => .negInf
  | .negZero, y => y
  | x, .negZero => x
  | .fin a, .fin b => .fin (a + b)

/-- `Number::divide`, the `/` of two numbers. -/
def jsDiv (x y : JSNum) : JSNum :=
  match x, y with
  | .nan, _ => .nan
  | _, .nan => .nan
  | x, y =>
    let neg := xor x.isNeg y.isNeg
    if x.isInf then (if y.isInf then .nan else JSNum.signedInf neg)
    else if y.isInf then JSNum.signedZero neg
    else if y.isZero then (if x.isZero then .nan else JSNum.signedInf neg)
    else if x.isZero then JSNum.signedZero neg
    else .fin (x.toRat / y.toRat)

/-- `Number::lessThan`, the `<` of two numbers: false when either is `NaN`, and
`-0` is not less than `+0`. -/
def jsLt : JSNum → JSNum → Bool
  | .nan, _ => false
  | _, .nan => false
  | .negInf, .negInf => false
  | .negInf, _ => true
  | _, .negInf => false
  | .posInf, _ => false
  | _, .posInf => true
  | x, y => decide (x.toRat < y.toRat)

/-- The `>` of two numbers. -/
def jsGt (x y : JSNum) : Bool := jsLt y x

/-- The `<=` of two numbers: false when either is `NaN`, else `!(y < x)`. -/
def jsLe : JSNum → JSNum → Bool
  | .nan, _ => false
  | _, .nan => false
  | x, y => !(jsLt y x)

/-- The `>=` of two numbers. -/
def jsGe (x y : JSNum) : Bool := jsLe y x

/-- `Math.floor`. -/
def mathFloor : JSNum → JSNum
  | .fin q => .fin (⌊q⌋ : ℤ)
  | n => n

/-- The loop of `Math.max` over the coerced arguments, `highest` so far. -/
def mathMaxLoop : JSNum → List JSNum → JSNum
  | highest, [] => highest
  | highest, number :: rest =>
    if number = .nan then .nan
    else
      let highest := if number = .fin 0 ∧ highest = .negZero then .fin 0 else highest
      let highest := if jsGt number highest then number else highest
      mathMaxLoop highest rest

/-- `Math.max(...args)`: starts from `-Infinity`. -/
def mathMax (args : List JSNum) : JSNum := mathMaxLoop .negInf args

/-- The loop of `Math.min` over the coerced arguments, `lowest` so far. -/
def mathMinLoop : JSNum → List JSNum → JSNum
  | lowest, [] => lowest
  | lowest, number :: rest =>
    if number = .nan then .nan
    else
      let lowest := if number = .negZero ∧ lowest = .fin 0 then .negZero else lowest
      let lowest := if jsLt number lowest then number else lowest
      mathMinLoop lowest rest

/-- `Math.min(...args)`: starts from `+Infinity`. -/
def mathMin (args : List JSNum) : JSNum := mathMinLoop .posInf args

/-- `findMax` (array.js:61): `Math.max(...arr)`, on arrays of numbers. -/
def findMax : Arg JSNum → Except JSError JSNum
  | .nonArray _ => .error (.typeError "Input must be an array")
  | .array arr => .ok (mathMax arr)

/-- `findMin` (array.js:115): `Math.min(...arr)`, on arrays of numbers. -/
def findMin : Arg JSNum → Except JSError JSNum
  | .nonArray _ => .error (.typeError "Input must be an array")
  | .array arr => .ok (mathMin arr)

/-- The loop of `Array.prototype.reduce` with an initial value: the callback
receives the accumulator, the element and its index, from index `k` on; an
error thrown by the callback ends the loop. -/
def reduceFrom {α β : Type} (callback : β → α → Nat → Except JSError β) :
    β → List α → Nat → Except JSError β
  | accumulator, [], _ => .ok accumulator
  | accumulator, item :: rest, k =>
    match callback accumulator item k with
    | .ok next => reduceFrom callback next rest (k + 1)
    | .error e => .error e

/-- `arr.reduce(callback, initialValue)`. -/
def jsReduce {α β : Type} (callback : β → α → Nat → Except JSError β) (initialValue : β)
    (arr : List α) : Except JSError β :=
  reduceFrom callback initialValue arr 0

/-- `sumArray` (array.js:136): `arr.reduce((sum, num) => sum + num, 0)`, on arrays
of numbers. -/
def sumArray : Arg JSNum → Except JSError JSNum
  | .nonArray _ => .error (.typeError "Input must be an array")
  | .array arr => jsReduce (fun sum num _ => .ok (jsAdd sum num)) (.fin 0) arr

/-- `averageArray` (array.js:158): `sumArray(arr) / arr.length`, on arrays of
numbers. -/
def averageArray : Arg JSNum → Except JSError JSNum
  | .nonArray _ => .error (.typeError "Input must be an array")
  | .array arr => do
    let sum ← sumArray (.array arr)
    pure (jsDiv sum (.fin arr.length))

/-! ## `chunkArray` -/

/-- A property key computed from a number: an array index (a canonical
non-negative integer below `2^32 - 1`), or any other name. -/
inductive PropKey where
  | index (i : Nat)
  | named (n : JSNum)
  deriving DecidableEq

/-- `ToPropertyKey` of a number: `-0` and `+0` both name index `0`; a negative
or fractional number, one that is too large, `NaN` and the infinities name
ordinary properties. -/
def toPropertyKey : JSNum → PropKey
  | .negZero => .index 0
  | .fin q =>
    if q.den = 1 ∧ 0 ≤ q ∧ q < 2 ^ 32 - 1 then .index q.num.toNat else .named (.fin q)
  | n => .named n

/-- The array `chunks` under construction: its indexed slots (`none` is a hole)
and its other own properties, in creation order. -/
structure Chunks where
  slots : List (Option (List JSVal))
  named : List (JSNum × List JSVal)

/-- `chunks[key]`: `none` stands for `undefined`. -/
def Chunks.get (chunks : Chunks) : PropKey → Option (List JSVal)
  | .index i => (chunks.slots.get? i).join
  | .named n => (chunks.named.find? (fun entry => decide (entry.1 = n))).map Prod.snd

/-- Writing slot `i` of an array: a write past the end first extends the array
with holes. -/
def setSlot (slots : List (Option (List JSVal))) (i : Nat) (value : List JSVal) :
    List (Option (List JSVal)) :=
  if i < slots.length then slots.set i (some value)
  else slots ++ List.replicate (i - slots.length) none ++ [some value]

/-- Writing an ordinary property: an existing one is overwritten in place, a
new one is added last. -/
def setNamed (named : List (JSNum × List JSVal)) (n : JSNum) (value : List JSVal) :
    List (JSNum × List JSVal) :=
  if named.any (fun entry => decide (entry.1 = n)) then
    named.map (fun entry => if entry.1 = n then (n, value) else entry)
  else named ++ [(n, value)]

/-- `chunks[key] = value`. -/
def Chunks.set (chunks : Chunks) : PropKey → List JSVal → Chunks
  | .index i, value => { chunks with slots := setSlot chunks.slots i value }
  | .named n, value => { chunks with named := setNamed chunks.named n value }

/-- The reducer of `chunkArray` (array.js:91-96). Calling `push` on `undefined`
would throw; the assignment just before rules it out. -/
def chunkCallback (size : JSNum) (chunks : Chunks) (item : JSVal) (index : Nat) :
    Except JSError Chunks :=
  let chunkIndex := toPropertyKey (mathFloor (jsDiv (.fin index) size))
  let chunks := if (chunks.get chunkIndex).isNone then chunks.set chunkIndex [] else chunks
  match chunks.get chunkIndex with
  | some chunk => .ok (chunks.set chunkIndex (chunk ++ [item]))
  | none => .error (.typeError "Cannot read properties of undefined (reading 'push')")

/-- `chunkArray` (array.js:84). -/
def chunkArray : Arg JSVal → JSVal → Except JSError Chunks
  | .nonArray _, _ => .error (.typeError "First parameter must be an array")
  | .array arr, .prim (.num size) => jsReduce (chunkCallback size) ⟨[], []⟩ arr
  | .array _, _ => .error (.typeError "Second parameter must be a number")

/-! ## Argument checks -/

/-- `Array.isArray(arg)`. -/
def Arg.isArray {α : Type} : Arg α → Bool
  | .array _ => true
  | .nonArray _ => false

/-- The test `typeof v === 'number'`. -/
def isNumber : JSVal → Bool
  | .prim (.num _) => true
  | _ => false

/-! ## `getDaysDifference` -/

/-- Unary minus on numbers. -/
def jsNeg : JSNum → JSNum
  | .nan => .nan
  | .negInf => .posInf
  | .posInf => .negInf
  | .negZero => .fin 0
  | .fin q => if q = 0 then .negZero else .fin (-q)

/-- `Number::subtract`, the `-` of two numbers: `x + (-y)`. -/
def jsSub (x y : JSNum) : JSNum := jsAdd x (jsNeg y)

/-- `Math.abs`. -/
def mathAbs : JSNum → JSNum
  | .nan => .nan
  | .negInf => .posInf
  | .posInf => .posInf
  | .negZero => .fin 0
  | .fin q => .fin |q|

/-- The date built by `new Date(x)`: a time value in milliseconds since the epoch,
or the invalid date, whose time value is `NaN`. How `x` (a string or a date) is
read is the platform's. -/
inductive DateValue where
  | valid (ms : Int)
  | invalid

/-- The number a date converts to: its time value. -/
def DateValue.toNumber : DateValue → JSNum
  | .valid ms => .fin ms
  | .invalid => .nan

/-- The global `isNaN` on a number. -/
def jsIsNaN : JSNum → Bool
  | .nan => true
  | _ => false

/-- `getDaysDifference` (date.js:23), on the dates `d1 = new Date(date1)` and
`d2 = new Date(date2)`: `Math.abs((d1 - d2) / (1000 * 60 * 60 * 24))`. -/
def getDaysDifference (d1 d2 : DateValue) : Except JSError JSNum :=
  if jsIsNaN d1.toNumber || jsIsNaN d2.toNumber then .error (.typeError "Invalid date")
  else .ok (mathAbs (jsDiv (jsSub d1.toNumber d2.toNumber) (.fin (1000 * 60 * 60 * 24))))

/-! ## `reverseString` and `isPalindrome` -/

/-- The values whose `typeof` is not `'string'`. -/
inductive NonString where
  | undefined
  | null
  | bool (b : Bool)
  | num (n : JSNum)
  | object (ref : Nat)

/-- An argument passed where a string is expected; a string is the list of its
UTF-16 code units. -/
inductive StrArg where
  | string (units : List Nat)
  | nonString (v : NonString)

/-- The lower case of one code unit, as far as the code units `a`-`z` and `0`-`9`
of the result go: `A`-`Z` give `a`-`z`, the Kelvin sign U+212A gives `k`, and
U+0130 gives `i` followed by U+0307. Every other cased letter has a lower case
outside `a`-`z`, `0`-`9` and is left as it is here. -/
def lowerUnit (c : Nat) : List Nat :=
  if 65 ≤ c ∧ c ≤ 90 then [c + 32]
  else if c = 0x212A then [0x6B]
  else if c = 0x130 then [0x69, 0x307]
  else [c]

/-- `str.toLowerCase()`, see `lowerUnit`. -/
def toLowerCase (str : List Nat) : List Nat := str.flatMap lowerUnit

/-- The class `[a-z0-9]`. -/
def isLowerAlnum (c : Nat) : Bool := (97 ≤ c && c ≤ 122) || (48 ≤ c && c ≤ 57)

/-- `str.replace(/[^a-z0-9]/g, '')`: every code unit outside the class is removed. -/
def removeNonAlnum (str : List Nat) : List Nat := str.filter isLowerAlnum

/-- `str.split('')`: one string per code unit. -/
def splitUnits (str : List Nat) : List (List Nat) := str.map (fun c => [c])

/-- `parts.join('')`. -/
def joinUnits (parts : List (List Nat)) : List Nat := parts.flatten

/-- `reverseString` (string.js:31): `str.split('').reverse().join('')`. -/
def reverseString : StrArg → Except JSError (List Nat)
  | .nonString _ => .error (.typeError "Input must be a string")
  | .string str => .ok (joinUnits (splitUnits str).reverse)

/-- `isPalindrome` (string.js:44). -/
def isPalindrome : StrArg → Except JSError Bool
  | .nonString _ => .error (.typeError "Input must be a string")
  | .string str =>
    let sanitized := removeNonAlnum (toLowerCase str)
    .ok (decide (sanitized = joinUnits (splitUnits sanitized).reverse))

/-! ## Equality as equality of keys -/

/-- The key of a number under `SameValueZero`: `-0` is read as `+0`. -/
def JSNum.key : JSNum → JSNum
  | .negZero => .fin 0
  | .nan => .nan
  | .negInf => .negInf
  | .posInf => .posInf
  | .fin q => .fin q

/-- The key of a non-array value under `SameValueZero`. -/
def Prim.key : Prim → Prim
  | .num n => .num n.key
  | .undefined => .undefined
  | .null => .null
  | .bool b => .bool b
  | .str s => .str s
  | .obj r => .obj r

/-- What `SameValueZero` compares: a non-array value up to the sign of zero, or
the identity of an array. -/
inductive Key where
  | val (p : Prim)
  | ref (r : Nat)
  deriving DecidableEq

/-- The key of a value under `SameValueZero`. -/
def svzKey : JSVal → Key
  | .prim p => .val p.key
  | .arr r _ => .ref r

/-- The key of `NaN`, the only value that is not strictly equal to itself. -/
def nanKey : Key := .val (.num .nan)

/-- The elements of a list whose key is not in `seen` and not the key of an
earlier element of the list: the first occurrences. -/
def firstOccurrences : List Key → List JSVal → List JSVal
  | _, [] => []
  | seen, x :: rest =>
    if svzKey x ∈ seen then firstOccurrences seen rest
    else x :: firstOccurrences (svzKey x :: seen) rest

mutual
/-- The non-array leaves of a value, from left to right: a non-array value is
its own leaf, an array has the leaves of its elements. -/
def leaves : JSVal → List JSVal
  | .prim p => [.prim p]
  | .arr _ items => leavesOfItems items
/-- The non-array leaves of the elements of an array, in order (depth first). -/
def leavesOfItems : List JSVal → List JSVal
  | [] => []
  | x :: rest => leaves x ++ leavesOfItems rest
end

/-- `LeafOf x v`: the non-array value `x` is `v` itself or is reached from the
array `v` by descending into elements. -/
inductive LeafOf : JSVal → JSVal → Prop where
  | self (p : Prim) : LeafOf (.prim p) (.prim p)
  | inArray (x y : JSVal) (ref : Nat) (items : List JSVal) :
      y ∈ items → LeafOf x y → LeafOf x (.arr ref items)

/-- The array `chunks` when it has no hole and no property besides its slots. -/
def denseChunks (cs : List (List JSVal)) : Chunks := ⟨cs.map some, []⟩

/-- The state of `chunks` after `i` elements with chunk size `n`: every chunk but
the last is full, the last holds between `1` and `n` elements. -/
def ChunksInv (n i : Nat) (cs : List (List JSVal)) : Prop :=
  (cs = [] ∧ i = 0) ∨
  ∃ init last, cs = init ++ [last] ∧ (∀ c ∈ init, c.length = n) ∧
    0 < last.length ∧ last.length ≤ n ∧ i = n * init.length + last.length

/-- The index of the first occurrence of `v` in `s` (the length of `s` when `v`
does not occur), occurrence being tested with `SameValueZero`. -/
def firstIndex (s : List JSVal) (v : JSVal) : Nat :=
  s.findIdx (fun e => sameValueZero e v)

/-- The elements of `s` at the indices `i` for which no earlier index holds an
equal value. -/
def keepFirstOccurrences (s : List JSVal) : List JSVal :=
  jsFilter (fun item i => !((s.take i).any (fun e => sameValueZero e item))) s

/-- The UTF-16 code units of a string literal. -/
def utf16 (s : String) : List Nat :=
  s.toList.flatMap (fun ch =>
    if ch.toNat < 0x10000 then [ch.toNat]
    else [0xD800 + (ch.toNat - 0x10000) / 0x400, 0xDC00 + (ch.toNat - 0x10000) % 0x400])

/-- The lower case of an ASCII letter; other code units are unchanged. -/
def asciiLower (c : Nat) : Nat := if 65 ≤ c ∧ c ≤ 90 then c + 32 else c

/-- The ASCII letters and digits. -/
def isAsciiAlnum (c : Nat) : Bool := (65 ≤ c && c ≤ 90) || isLowerAlnum c

/-- What `isPalindrome` keeps of one code unit: an ASCII letter or digit is kept
in lower case, the Kelvin sign U+212A is kept as `k` and U+0130 as `i`, every
other code unit is dropped. -/
def keptAs (c : Nat) : Option Nat :=
  if isAsciiAlnum c then some (asciiLower c)
  else if c = 0x212A then some 0x6B
  else if c = 0x130 then some 0x69
  else none

/-- The letters and digits of a string, in lower case, every other character
removed. -/
def lettersAndDigits (str : List Nat) : List Nat := str.filterMap keptAs

/-! # Verification -/

theorem JSNum.numSameValueZero_iff (x y : JSNum) :
    JSNum.sameValueZero x y = true ↔ x.key = y.key := by
  cases x <;> cases y <;> simp [JSNum.sameValueZero, JSNum.equal, JSNum.key, eq_comm]

theorem JSNum.equal_iff (x y : JSNum) :
    JSNum.equal x y = true ↔ x.key = y.key ∧ y ≠ .nan := by
  cases x <;> cases y <;> simp [JSNum.equal, JSNum.key, eq_comm]

theorem JSNum.numKey_eq_nan (x : JSNum) : x.key = .nan ↔ x = .nan := by
  cases x <;> simp [JSNum.key]

theorem Prim.primSameValueZero_iff (p q : Prim) :
    Prim.sameValueZero p q = true ↔ p.key = q.key := by
  cases p <;> cases q <;> simp [Prim.sameValueZero, Prim.key, JSNum.numSameValueZero_iff]

theorem Prim.primStrictEq_iff (p q : Prim) :
    Prim.strictEq p q = true ↔ p.key = q.key ∧ q ≠ .num .nan := by
  cases p <;> cases q <;> simp [Prim.strictEq, Prim.key, JSNum.equal_iff]

theorem Prim.primKey_eq_nan (p : Prim) : p.key = .num .nan ↔ p = .num .nan := by
  cases p <;> simp [Prim.key, JSNum.numKey_eq_nan]

theorem sameValueZero_iff (a b : JSVal) :
    sameValueZero a b = true ↔ svzKey a = svzKey b := by
  cases a <;> cases b <;> simp [sameValueZero, svzKey, Prim.primSameValueZero_iff]

theorem svzKey_eq_nanKey (a : JSVal) : svzKey a = nanKey ↔ a = .prim (.num .nan) := by
  cases a <;> simp [svzKey, nanKey, Prim.primKey_eq_nan]

theorem strictEq_iff (a b : JSVal) :
    strictEq a b = true ↔ svzKey a = svzKey b ∧ svzKey b ≠ nanKey := by
  cases a <;> cases b <;>
    simp [strictEq, svzKey, Prim.primStrictEq_iff, nanKey, Prim.primKey_eq_nan]

theorem svzKey_canonicalizeKey (v : JSVal) : svzKey (canonicalizeKey v) = svzKey v := by
  cases v with
  | arr r items => rfl
  | prim p =>
    cases p <;> try rfl
    rename_i n
    cases n <;> rfl

/-! ## `removeDuplicates` -/

theorem any_sameValueZero_iff (entries : List JSVal) (w : JSVal) :
    entries.any (fun e => sameValueZero e w) = true ↔ svzKey w ∈ entries.map svzKey := by
  simp only [List.any_eq_true, List.mem_map, sameValueZero_iff]

theorem setAdd_of_mem (entries : List JSVal) (v : JSVal)
    (h : svzKey v ∈ entries.map svzKey) : setAdd entries v = entries := by
  have h' := (any_sameValueZero_iff entries (canonicalizeKey v)).2
    (by rw [svzKey_canonicalizeKey]; exact h)
  unfold setAdd
  simp [h']

theorem setAdd_of_not_mem (entries : List JSVal) (v : JSVal)
    (h : svzKey v ∉ entries.map svzKey) :
    setAdd entries v = entries ++ [canonicalizeKey v] := by
  have h' : ¬ (entries.any (fun e => sameValueZero e (canonicalizeKey v)) = true) := by
    intro hc
    have := (any_sameValueZero_iff entries (canonicalizeKey v)).1 hc
    rw [svzKey_canonicalizeKey] at this
    exact h this
  unfold setAdd
  simp [h']

theorem setAdd_keys_nodup (entries : List JSVal) (v : JSVal)
    (h : (entries.map svzKey).Nodup) : ((setAdd entries v).map svzKey).Nodup := by
  rcases Classical.em (svzKey v ∈ entries.map svzKey) with hv | hv
  · rw [setAdd_of_mem entries v hv]
    exact h
  · rw [setAdd_of_not_mem entries v hv, List.map_append]
    refine List.Nodup.append h (List.nodup_singleton _) ?_
    simpa [svzKey_canonicalizeKey] using hv

theorem mem_setAdd_keys (entries : List JSVal) (v : JSVal) (k : Key) :
    k ∈ (setAdd entries v).map svzKey ↔ k ∈ entries.map svzKey ∨ k = svzKey v := by
  rcases Classical.em (svzKey v ∈ entries.map svzKey) with hv | hv
  · rw [setAdd_of_mem entries v hv]
    constructor
    · exact Or.inl
    · rintro (h | rfl)
      · exact h
      · exact hv
  · rw [setAdd_of_not_mem entries v hv]
    simp [svzKey_canonicalizeKey]

theorem newSet_keys_nodup (rest : List JSVal) :
    ∀ entries : List JSVal, (entries.map svzKey).Nodup →
      ((newSet entries rest).map svzKey).Nodup := by
  induction rest with
  | nil => intro entries h; simpa [newSet] using h
  | cons x rest ih =>
    intro entries h
    simp only [newSet]
    exact ih _ (setAdd_keys_nodup entries x h)

theorem mem_newSet_keys (rest : List JSVal) (k : Key) :
    ∀ entries : List JSVal,
      k ∈ (newSet entries rest).map svzKey ↔ k ∈ entries.map svzKey ∨ k ∈ rest.map svzKey := by
  induction rest with
  | nil => intro entries; simp [newSet]
  | cons x rest ih =>
    intro entries
    simp only [newSet]
    rw [ih, mem_setAdd_keys]
    simp only [List.map_cons, List.mem_cons]
    tauto

theorem exists_sameValueZero_iff (l : List JSVal) (v : JSVal) :
    (∃ x ∈ l, sameValueZero x v = true) ↔ svzKey v ∈ l.map svzKey := by
  simp only [sameValueZero_iff, List.mem_map]

theorem exists_strictEq_iff (l : List JSVal) (v : JSVal) :
    (∃ x ∈ l, strictEq x v = true) ↔ svzKey v ∈ l.map svzKey ∧ svzKey v ≠ nanKey := by
  simp only [strictEq_iff, List.mem_map]
  constructor
  · rintro ⟨x, hx, hk, hn⟩
    exact ⟨⟨x, hx, hk⟩, hn⟩
  · rintro ⟨⟨x, hx, hk⟩, hn⟩
    exact ⟨x, hx, hk, hn⟩

theorem strictEq_imp_sameValueZero (a b : JSVal) (h : strictEq a b = true) :
    sameValueZero a b = true :=
  (sameValueZero_iff a b).2 ((strictEq_iff a b).1 h).1

/-- C1. `removeDuplicates(s)` holds no two equal elements, and a value occurs in
it exactly when it occurs in `s`, equality being that of the `Set`
(`SameValueZero`) or `===`; `removeDuplicates([1,2,2,3,3,3])` is `[1,2,3]`. -/
theorem removeDuplicates_nodup_and_same_elements (s : List JSVal) :
    (∃ out, removeDuplicates (.array s) = .ok out ∧
      out.Pairwise (fun a b => sameValueZero a b = false ∧ strictEq a b = false) ∧
      (∀ v, (∃ x ∈ out, sameValueZero x v = true) ↔ (∃ x ∈ s, sameValueZero x v = true)) ∧
      (∀ v, (∃ x ∈ out, strictEq x v = true) ↔ (∃ x ∈ s, strictEq x v = true))) ∧
    removeDuplicates (.array ([1, 2, 2, 3, 3, 3].map JSVal.ofRat))
      = .ok ([1, 2, 3].map JSVal.ofRat) := by
  refine ⟨⟨newSet [] s, rfl, ?_, ?_, ?_⟩, ?_⟩
  · have h := newSet_keys_nodup s [] (by simp)
    rw [List.Nodup, List.pairwise_map] at h
    refine h.imp ?_
    intro a b hab
    have hsvz : sameValueZero a b = false := by
      cases hc : sameValueZero a b
      · rfl
      · exact absurd ((sameValueZero_iff a b).1 hc) hab
    refine ⟨hsvz, ?_⟩
    cases hc : strictEq a b
    · rfl
    · rw [strictEq_imp_sameValueZero a b hc] at hsvz
      cases hsvz
  · intro v
    rw [exists_sameValueZero_iff, exists_sameValueZero_iff, mem_newSet_keys]
    simp
  · intro v
    rw [exists_strictEq_iff, exists_strictEq_iff, mem_newSet_keys]
    simp
  · simp [removeDuplicates, newSet, setAdd, canonicalizeKey, sameValueZero, Prim.sameValueZero,
      JSNum.sameValueZero, JSNum.equal, JSVal.ofRat]

/-! ## `uniqueArray` and `removeDuplicates` -/

theorem firstOccurrences_congr (t : List JSVal) :
    ∀ seen seen' : List Key, (∀ k, k ∈ seen ↔ k ∈ seen') →
      firstOccurrences seen t = firstOccurrences seen' t := by
  induction t with
  | nil => intro seen seen' _; rfl
  | cons x t ih =>
    intro seen seen' h
    simp only [firstOccurrences, h (svzKey x)]
    split
    · exact ih _ _ h
    · congr 1
      apply ih
      intro k
      simp [h k]

theorem newSet_eq_firstOccurrences (t : List JSVal) :
    ∀ entries : List JSVal,
      newSet entries t
        = entries ++ (firstOccurrences (entries.map svzKey) t).map canonicalizeKey := by
  induction t with
  | nil => intro entries; simp [newSet, firstOccurrences]
  | cons x t ih =>
    intro entries
    simp only [newSet, firstOccurrences]
    by_cases hx : svzKey x ∈ entries.map svzKey
    · rw [setAdd_of_mem entries x hx, ih, if_pos hx]
    · rw [setAdd_of_not_mem entries x hx, ih, if_neg hx]
      simp only [List.map_cons, List.append_assoc, List.singleton_append, List.cons.injEq,
        List.append_cancel_left_eq, true_and]
      congr 1
      apply firstOccurrences_congr
      intro k
      simp [svzKey_canonicalizeKey, or_comm]

theorem indexOfFrom_cons (x e : JSVal) (l : List JSVal) (k : Nat) :
    indexOfFrom x (e :: l) k
      = if strictEq x e = true then (k : Int) else indexOfFrom x l (k + 1) := rfl

theorem indexOfFrom_of_not_mem (x : JSVal) (hx : svzKey x ≠ nanKey) (rest : List JSVal)
    (p : List JSVal) :
    ∀ k : Nat, svzKey x ∉ p.map svzKey →
      indexOfFrom x (p ++ x :: rest) k = ((k + p.length : Nat) : Int) := by
  induction p with
  | nil =>
    intro k _
    have : strictEq x x = true := (strictEq_iff x x).2 ⟨rfl, hx⟩
    simp [indexOfFrom, this]
  | cons e p ih =>
    intro k hmem
    have hne : ¬ strictEq x e = true := by
      intro hc
      exact hmem (by simp [((strictEq_iff x e).1 hc).1])
    have hp : svzKey x ∉ p.map svzKey := fun hc => hmem (by simp [List.mem_map] at hc ⊢; exact Or.inr hc)
    rw [List.cons_append, indexOfFrom_cons, if_neg hne, ih (k + 1) hp]
    simp only [List.length_cons]
    congr 1
    omega

theorem indexOfFrom_of_mem (x : JSVal) (hx : svzKey x ≠ nanKey) (rest : List JSVal)
    (p : List JSVal) :
    ∀ k : Nat, svzKey x ∈ p.map svzKey →
      indexOfFrom x (p ++ rest) k < ((k + p.length : Nat) : Int) := by
  induction p with
  | nil => intro k h; simp at h
  | cons e p ih =>
    intro k hmem
    rw [List.cons_append, indexOfFrom_cons]
    by_cases he : strictEq x e = true
    · rw [if_pos he]
      simp only [List.length_cons]
      omega
    · rw [if_neg he]
      have hp : svzKey x ∈ p.map svzKey := by
        simp only [List.map_cons, List.mem_cons] at hmem
        rcases hmem with h | h
        · exfalso
          apply he
          rw [strictEq_iff]
          exact ⟨h, h ▸ hx⟩
        · exact h
      have := ih (k + 1) hp
      simp only [List.length_cons]
      omega

theorem filterFrom_indexOf (arr : List JSVal) (hnan : ∀ x ∈ arr, svzKey x ≠ nanKey)
    (t : List JSVal) :
    ∀ p : List JSVal, arr = p ++ t →
      filterFrom (fun item index => decide (indexOf arr item = (index : Int))) t p.length
        = firstOccurrences (p.map svzKey) t := by
  induction t with
  | nil => intro p _; rfl
  | cons x t ih =>
    intro p harr
    have hx : svzKey x ≠ nanKey := hnan x (by rw [harr]; simp)
    have harr' : arr = (p ++ [x]) ++ t := by rw [harr]; simp
    have hrec := ih (p ++ [x]) harr'
    simp only [List.length_append, List.length_singleton] at hrec
    simp only [filterFrom, firstOccurrences]
    by_cases hmem : svzKey x ∈ p.map svzKey
    · have hlt := indexOfFrom_of_mem x hx (x :: t) p 0 hmem
      have hcb : ¬ indexOf arr x = (p.length : Int) := by
        unfold indexOf
        rw [harr]
        simp only [Nat.zero_add] at hlt
        omega
      simp only [hcb, decide_False, if_pos hmem]
      rw [hrec]
      apply firstOccurrences_congr
      intro k
      simp only [List.map_append, List.map_cons, List.map_nil, List.mem_append,
        List.mem_singleton]
      constructor
      · rintro (h | rfl)
        · exact h
        · exact hmem
      · exact Or.inl
    · have heq := indexOfFrom_of_not_mem x hx t p 0 hmem
      have hcb : indexOf arr x = (p.length : Int) := by
        unfold indexOf
        rw [harr, heq]
        simp
      simp only [hcb, decide_True, if_true, if_neg hmem]
      rw [hrec]
      congr 1
      apply firstOccurrences_congr
      intro k
      simp [or_comm]

theorem firstOccurrences_subset (t : List JSVal) :
    ∀ seen : List Key, ∀ x ∈ firstOccurrences seen t, x ∈ t := by
  induction t with
  | nil => intro seen x h; simp [firstOccurrences] at h
  | cons y t ih =>
    intro seen x h
    simp only [firstOccurrences] at h
    split at h
    · exact List.mem_cons_of_mem _ (ih _ x h)
    · rcases List.mem_cons.1 h with rfl | h
      · exact List.mem_cons_self _ _
      · exact List.mem_cons_of_mem _ (ih _ x h)

theorem canonicalizeKey_of_ne (v : JSVal) (h : v ≠ JSVal.minusZero) : canonicalizeKey v = v := by
  cases v with
  | arr r items => rfl
  | prim p =>
    cases p <;> try rfl
    rename_i n
    cases n <;> first | rfl | exact absurd rfl h

/-- The agreement of the two functions away from `NaN`: on an array without
`NaN`, `removeDuplicates` returns what `uniqueArray` returns, with `-0` stored
as `+0` by the `Set`; without `-0` either, the two results are the same. -/
theorem removeDuplicates_eq_uniqueArray_of_no_nan (s : List JSVal)
    (hnan : ∀ x ∈ s, x ≠ JSVal.NaN) :
    (∃ out, uniqueArray (.array s) = .ok out ∧
      removeDuplicates (.array s) = .ok (out.map canonicalizeKey)) ∧
    ((∀ x ∈ s, x ≠ JSVal.minusZero) → uniqueArray (.array s) = removeDuplicates (.array s)) := by
  have hk : ∀ x ∈ s, svzKey x ≠ nanKey := fun x hx hc =>
    hnan x hx ((svzKey_eq_nanKey x).1 hc)
  have hu : uniqueArray (.array s) = .ok (firstOccurrences [] s) := by
    have := filterFrom_indexOf s hk s [] rfl
    simp only [uniqueArray, jsFilter]
    exact congrArg _ this
  have hr : removeDuplicates (.array s)
      = .ok ((firstOccurrences [] s).map canonicalizeKey) := by
    have := newSet_eq_firstOccurrences s []
    simp only [removeDuplicates]
    exact congrArg _ (by simpa using this)
  refine ⟨⟨_, hu, hr⟩, ?_⟩
  intro hz
  rw [hu, hr]
  congr 1
  symm
  calc (firstOccurrences [] s).map canonicalizeKey
      = (firstOccurrences [] s).map id :=
        List.map_congr_left (fun x hx =>
          canonicalizeKey_of_ne x (hz x (firstOccurrences_subset s [] x hx)))
    _ = firstOccurrences [] s := List.map_id _

theorem removeDuplicates_eq_uniqueArray_of_no_nan_witness :
    (∃ out, uniqueArray (.array [JSVal.ofRat 1, JSVal.ofStr "a", JSVal.ofRat 1]) = .ok out ∧
      removeDuplicates (.array [JSVal.ofRat 1, JSVal.ofStr "a", JSVal.ofRat 1])
        = .ok (out.map canonicalizeKey)) ∧
    ((∀ x ∈ [JSVal.ofRat 1, JSVal.ofStr "a", JSVal.ofRat 1], x ≠ JSVal.minusZero) →
      uniqueArray (.array [JSVal.ofRat 1, JSVal.ofStr "a", JSVal.ofRat 1])
        = removeDuplicates (.array [JSVal.ofRat 1, JSVal.ofStr "a", JSVal.ofRat 1])) :=
  removeDuplicates_eq_uniqueArray_of_no_nan [JSVal.ofRat 1, JSVal.ofStr "a", JSVal.ofRat 1]
    (by simp [JSVal.ofRat, JSVal.ofStr, JSVal.NaN])

/-- C2 at `[NaN]` and at `[1, NaN, 2]`: `uniqueArray` drops `NaN`, which
`indexOf` never finds, and `removeDuplicates` keeps it, so `uniqueArray(arr)`
is not `removeDuplicates(arr)` there. -/
theorem uniqueArray_drops_nan :
    uniqueArray (.array [JSVal.NaN]) = .ok [] ∧
    removeDuplicates (.array [JSVal.NaN]) = .ok [JSVal.NaN] ∧
    uniqueArray (.array [JSVal.ofRat 1, JSVal.NaN, JSVal.ofRat 2])
      = .ok [JSVal.ofRat 1, JSVal.ofRat 2] ∧
    removeDuplicates (.array [JSVal.ofRat 1, JSVal.NaN, JSVal.ofRat 2])
      = .ok [JSVal.ofRat 1, JSVal.NaN, JSVal.ofRat 2] ∧
    uniqueArray (.array [JSVal.NaN]) ≠ removeDuplicates (.array [JSVal.NaN]) := by
  refine ⟨?_, ?_, ?_, ?_, ?_⟩ <;>
    simp [uniqueArray, jsFilter, filterFrom, indexOf, indexOfFrom, strictEq, Prim.strictEq,
      removeDuplicates, newSet, setAdd, canonicalizeKey, sameValueZero, Prim.sameValueZero,
      JSNum.sameValueZero, JSNum.equal, JSVal.ofRat, JSVal.NaN]

/-! ## `flattenArray` -/

mutual
theorem flattenElement_infinity :
    ∀ (v : JSVal) (target : List JSVal),
      flattenElement .infinity target v = target ++ leaves v
  | .prim p, target => by simp [flattenElement, leaves]
  | .arr r items, target => by
    simp only [flattenElement, Depth.pos, Depth.pred, leaves, if_true]
    exact flattenIntoArray_infinity items target
theorem flattenIntoArray_infinity :
    ∀ (source target : List JSVal),
      flattenIntoArray .infinity target source = target ++ leavesOfItems source
  | [], target => by simp [flattenIntoArray, leavesOfItems]
  | x :: rest, target => by
    rw [flattenIntoArray, flattenElement_infinity x target,
      flattenIntoArray_infinity rest (target ++ leaves x)]
    simp [leavesOfItems]
end

mutual
theorem isArray_of_mem_leaves :
    ∀ (v x : JSVal), x ∈ leaves v → isArray x = false
  | .prim p, x, h => by
    simp only [leaves, List.mem_singleton] at h
    rw [h]
    rfl
  | .arr r items, x, h => by
    simp only [leaves] at h
    exact isArray_of_mem_leavesOfItems items x h
theorem isArray_of_mem_leavesOfItems :
    ∀ (l : List JSVal) (x : JSVal), x ∈ leavesOfItems l → isArray x = false
  | [], x, h => by simp [leavesOfItems] at h
  | y :: rest, x, h => by
    simp only [leavesOfItems, List.mem_append] at h
    rcases h with h | h
    · exact isArray_of_mem_leaves y x h
    · exact isArray_of_mem_leavesOfItems rest x h
end

theorem leaves_subset_leavesOfItems (y : JSVal) (l : List JSVal) (hy : y ∈ l) (x : JSVal)
    (hx : x ∈ leaves y) : x ∈ leavesOfItems l := by
  induction l with
  | nil => simp at hy
  | cons z l ih =>
    simp only [leavesOfItems, List.mem_append]
    rcases List.mem_cons.1 hy with rfl | hy
    · exact Or.inl hx
    · exact Or.inr (ih hy)

theorem mem_leaves_of_leafOf (x v : JSVal) (h : LeafOf x v) : x ∈ leaves v := by
  induction h with
  | self p => simp [leaves]
  | inArray x y ref items hy _ ih =>
    simp only [leaves]
    exact leaves_subset_leavesOfItems y items hy _ ih

mutual
theorem leafOf_of_mem_leaves : ∀ (v x : JSVal), x ∈ leaves v → LeafOf x v
  | .prim p, x, h => by
    simp only [leaves, List.mem_singleton] at h
    rw [h]
    exact LeafOf.self p
  | .arr r items, x, h => by
    simp only [leaves] at h
    obtain ⟨y, hy, hleaf⟩ := leafOf_of_mem_leavesOfItems items x h
    exact LeafOf.inArray x y r items hy hleaf
theorem leafOf_of_mem_leavesOfItems :
    ∀ (l : List JSVal) (x : JSVal), x ∈ leavesOfItems l → ∃ y ∈ l, LeafOf x y
  | [], x, h => by simp [leavesOfItems] at h
  | z :: rest, x, h => by
    simp only [leavesOfItems, List.mem_append] at h
    rcases h with h | h
    · exact ⟨z, List.mem_cons_self _ _, leafOf_of_mem_leaves z x h⟩
    · obtain ⟨y, hy, hleaf⟩ := leafOf_of_mem_leavesOfItems rest x h
      exact ⟨y, List.mem_cons_of_mem _ hy, hleaf⟩
end

theorem mem_leavesOfItems_iff (l : List JSVal) (x : JSVal) :
    x ∈ leavesOfItems l ↔ ∃ y ∈ l, LeafOf x y := by
  constructor
  · exact leafOf_of_mem_leavesOfItems l x
  · rintro ⟨y, hy, hleaf⟩
    exact leaves_subset_leavesOfItems y l hy x (mem_leaves_of_leafOf x y hleaf)

/-- C3. `flattenArray(s)` is the list of the non-array leaves of `s` from left to
right, whatever the depth of nesting: its elements are the non-array values
reached from the elements of `s`, and none of them is an array;
`flattenArray([1,[2,[3,[4]]]])` is `[1,2,3,4]`. -/
theorem flattenArray_eq_leaves (s : List JSVal) :
    flattenArray (.array s) = .ok (leavesOfItems s) ∧
    (∀ out, flattenArray (.array s) = .ok out →
      (∀ x ∈ out, isArray x = false) ∧ (∀ x, x ∈ out ↔ ∃ y ∈ s, LeafOf x y)) ∧
    flattenArray (.array [JSVal.ofRat 1,
        .arr 0 [JSVal.ofRat 2, .arr 1 [JSVal.ofRat 3, .arr 2 [JSVal.ofRat 4]]]])
      = .ok ([1, 2, 3, 4].map JSVal.ofRat) := by
  have h : flattenArray (.array s) = .ok (leavesOfItems s) := by
    simp only [flattenArray]
    rw [flattenIntoArray_infinity]
    rfl
  refine ⟨h, ?_, rfl⟩
  intro out hout
  rw [h] at hout
  cases hout
  exact ⟨fun x hx => isArray_of_mem_leavesOfItems s x hx, mem_leavesOfItems_iff s⟩

/-! ## `chunkArray` -/

theorem jsDiv_natCast (i n : Nat) (hn : 0 < n) :
    jsDiv (.fin i) (.fin n) = .fin ((i : ℚ) / (n : ℚ)) := by
  have hn' : ¬ ((n : ℚ) = 0) := by exact_mod_cast hn.ne'
  have hn'' : ¬ ((n : ℚ) < 0) := by
    have : (0 : ℚ) ≤ n := by exact_mod_cast Nat.zero_le n
    linarith
  have hi'' : ¬ ((i : ℚ) < 0) := by
    have : (0 : ℚ) ≤ i := by exact_mod_cast Nat.zero_le i
    linarith
  by_cases hi : (i : ℚ) = 0
  · simp [jsDiv, JSNum.isInf, JSNum.isZero, JSNum.isNeg, JSNum.signedZero, hi, hn']
  · simp [jsDiv, JSNum.isInf, JSNum.isZero, JSNum.isNeg, JSNum.toRat, hi, hn']

theorem toPropertyKey_natCast (m : Nat) (hm : m < 2 ^ 32 - 1) :
    toPropertyKey (.fin (m : ℚ)) = .index m := by
  have hlt : (m : ℚ) < 2 ^ 32 - 1 := by
    have h2 : ((m : ℕ) : ℚ) < ((2 ^ 32 - 1 : ℕ) : ℚ) := Nat.cast_lt.2 hm
    have h3 : ((2 ^ 32 - 1 : ℕ) : ℚ) = 2 ^ 32 - 1 := by norm_num
    rw [h3] at h2
    exact h2
  have h0 : (0 : ℚ) ≤ (m : ℚ) := Nat.cast_nonneg m
  have hden : (m : ℚ).den = 1 := Rat.den_natCast m
  simp only [toPropertyKey]
  rw [if_pos ⟨hden, h0, hlt⟩, Rat.num_natCast]
  rfl

theorem chunkIndex_natCast (i n : Nat) (hn : 0 < n) (hi : i < 2 ^ 32 - 1) :
    toPropertyKey (mathFloor (jsDiv (.fin i) (.fin n))) = .index (i / n) := by
  rw [jsDiv_natCast i n hn]
  simp only [mathFloor, Rat.floor_natCast_div_natCast]
  have hcast : (((i : ℤ) / (n : ℤ) : ℤ) : ℚ) = ((i / n : ℕ) : ℚ) := by
    norm_cast
  rw [hcast]
  exact toPropertyKey_natCast _ (lt_of_le_of_lt (Nat.div_le_self i n) hi)

theorem denseChunks_get (cs : List (List JSVal)) (j : Nat) :
    (denseChunks cs).get (.index j) = cs.get? j := by
  simp only [denseChunks, Chunks.get, List.get?_eq_getElem?, List.getElem?_map]
  cases cs[j]? <;> rfl

theorem chunkCallback_new (size : JSNum) (cs : List (List JSVal)) (item : JSVal) (i : Nat)
    (hkey : toPropertyKey (mathFloor (jsDiv (.fin i) size)) = .index cs.length) :
    chunkCallback size (denseChunks cs) item i = .ok (denseChunks (cs ++ [[item]])) := by
  have hget : (denseChunks cs).get (.index cs.length) = none := by
    rw [denseChunks_get]
    simp
  have hset : (denseChunks cs).set (.index cs.length) [] = denseChunks (cs ++ [[]]) := by
    simp [denseChunks, Chunks.set, setSlot]
  have hget' : (denseChunks (cs ++ [[]])).get (.index cs.length) = some [] := by
    rw [denseChunks_get]
    simp
  have hset' : (denseChunks (cs ++ [[]])).set (.index cs.length) ([] ++ [item])
      = denseChunks (cs ++ [[item]]) := by
    simp [denseChunks, Chunks.set, setSlot]
  simp only [chunkCallback, hkey, hget, Option.isNone_none, if_true, hset, hget', hset']

theorem chunkCallback_last (size : JSNum) (init : List (List JSVal)) (last : List JSVal)
    (item : JSVal) (i : Nat)
    (hkey : toPropertyKey (mathFloor (jsDiv (.fin i) size)) = .index init.length) :
    chunkCallback size (denseChunks (init ++ [last])) item i
      = .ok (denseChunks (init ++ [last ++ [item]])) := by
  have hget : (denseChunks (init ++ [last])).get (.index init.length) = some last := by
    rw [denseChunks_get]
    simp
  have hset : (denseChunks (init ++ [last])).set (.index init.length) (last ++ [item])
      = denseChunks (init ++ [last ++ [item]]) := by
    simp [denseChunks, Chunks.set, setSlot]
  simp [chunkCallback, hkey, hget, hset]

theorem chunkCallback_step (n i : Nat) (hn : 0 < n) (hi : i < 2 ^ 32 - 1)
    (cs : List (List JSVal)) (item : JSVal) (hinv : ChunksInv n i cs) :
    ∃ cs', chunkCallback (.fin n) (denseChunks cs) item i = .ok (denseChunks cs') ∧
      ChunksInv n (i + 1) cs' ∧ cs'.flatten = cs.flatten ++ [item] := by
  have hkey := chunkIndex_natCast i n hn hi
  rcases hinv with ⟨rfl, rfl⟩ | ⟨init, last, rfl, hfull, hpos, hle, hi'⟩
  · refine ⟨[] ++ [[item]], chunkCallback_new _ [] item 0 ?_, ?_, by simp⟩
    · simpa using hkey
    · exact Or.inr ⟨[], [item], rfl, by simp, by simp, by simpa using hn, by simp⟩
  · by_cases hfullLast : last.length = n
    · have hdiv : i / n = (init ++ [last]).length := by
        rw [hi', hfullLast, List.length_append, List.length_singleton]
        rw [show n * init.length + n = n * (init.length + 1) by ring]
        exact Nat.mul_div_cancel_left _ hn
      refine ⟨(init ++ [last]) ++ [[item]], chunkCallback_new _ _ item i (hdiv ▸ hkey), ?_,
        by simp⟩
      refine Or.inr ⟨init ++ [last], [item], rfl, ?_, by simp, by simpa using hn, ?_⟩
      · intro c hc
        rcases List.mem_append.1 hc with h | h
        · exact hfull c h
        · rw [List.mem_singleton.1 h]; exact hfullLast
      · rw [hi', hfullLast, List.length_append, List.length_singleton, List.length_singleton]
        ring
    · have hlt : last.length < n := lt_of_le_of_ne hle hfullLast
      have hdiv : i / n = init.length := by
        rw [hi', Nat.add_comm, Nat.add_mul_div_left _ _ hn, Nat.div_eq_of_lt hlt, Nat.zero_add]
      refine ⟨init ++ [last ++ [item]], chunkCallback_last _ init last item i (hdiv ▸ hkey), ?_,
        by simp⟩
      refine Or.inr ⟨init, last ++ [item], rfl, hfull, by simp, ?_, ?_⟩
      · rw [List.length_append, List.length_singleton]; omega
      · rw [List.length_append, List.length_singleton, hi']; ring

theorem reduceFrom_chunkCallback (n : Nat) (hn : 0 < n) (rest : List JSVal) :
    ∀ (i : Nat) (cs : List (List JSVal)), i + rest.length ≤ 2 ^ 32 - 1 → ChunksInv n i cs →
      ∃ cs', reduceFrom (chunkCallback (.fin n)) (denseChunks cs) rest i = .ok (denseChunks cs') ∧
        ChunksInv n (i + rest.length) cs' ∧ cs'.flatten = cs.flatten ++ rest := by
  induction rest with
  | nil =>
    intro i cs _ hinv
    exact ⟨cs, rfl, by simpa using hinv, by simp⟩
  | cons item rest ih =>
    intro i cs hlen hinv
    simp only [List.length_cons] at hlen
    obtain ⟨cs1, hstep, hinv1, hjoin1⟩ := chunkCallback_step n i hn (by omega) cs item hinv
    obtain ⟨cs2, hloop, hinv2, hjoin2⟩ := ih (i + 1) cs1 (by omega) hinv1
    refine ⟨cs2, ?_, ?_, ?_⟩
    · simp only [reduceFrom, hstep]
      exact hloop
    · simpa [Nat.add_assoc, Nat.add_comm 1] using hinv2
    · rw [hjoin2, hjoin1]; simp

theorem chunksInv_length (n i : Nat) (hn : 0 < n) (cs : List (List JSVal))
    (hinv : ChunksInv n i cs) : cs.length = (i + n - 1) / n := by
  rcases hinv with ⟨rfl, rfl⟩ | ⟨init, last, rfl, _, hpos, hle, hi⟩
  · simp only [List.length_nil, Nat.zero_add]
    exact (Nat.div_eq_of_lt (by omega)).symm
  · rw [List.length_append, List.length_singleton, hi]
    have h1 : n * init.length + last.length + n - 1 = (last.length - 1) + n * (init.length + 1) := by
      rw [Nat.mul_add, Nat.mul_one]; omega
    rw [h1, Nat.add_mul_div_left _ _ hn, Nat.div_eq_of_lt (by omega), Nat.zero_add]

theorem chunkArray_dense (n : Nat) (hn : 0 < n) (s : List JSVal) (hs : s.length < 2 ^ 32) :
    ∃ chunks, chunkArray (.array s) (JSVal.ofRat n) = .ok (denseChunks chunks) ∧
      ChunksInv n s.length chunks ∧ chunks.flatten = s := by
  obtain ⟨cs, hred, hinv, hflat⟩ :=
    reduceFrom_chunkCallback n hn s 0 [] (by omega) (Or.inl ⟨rfl, rfl⟩)
  refine ⟨cs, hred, ?_, ?_⟩
  · simpa using hinv
  · simpa using hflat

theorem natCeil_div (i n : Nat) (hn : 0 < n) :
    ⌈(i : ℚ) / (n : ℚ)⌉₊ = (i + n - 1) / n := by
  have hnq : (0 : ℚ) < n := by exact_mod_cast hn
  have h1 : n * ((i + n - 1) / n) ≤ i + n - 1 := Nat.mul_div_le _ _
  have h2 : i + n - 1 < n * ((i + n - 1) / n + 1) := Nat.lt_mul_div_succ _ hn
  generalize (i + n - 1) / n = m at h1 h2
  rw [Nat.mul_add, Nat.mul_one] at h2
  have h1q : (n : ℚ) * m ≤ i + n - 1 := by
    have : ((n * m : ℕ) : ℚ) ≤ ((i + n - 1 : ℕ) : ℚ) := Nat.cast_le.2 h1
    rw [Nat.cast_sub (by omega)] at this
    push_cast at this
    exact this
  have h2q : (i : ℚ) ≤ n * m := by
    have : i ≤ n * m := by omega
    exact_mod_cast this
  apply le_antisymm
  · rw [Nat.ceil_le, div_le_iff₀ hnq]
    linarith
  · rcases Nat.eq_zero_or_pos m with hm | hm
    · omega
    · have : m - 1 < ⌈(i : ℚ) / (n : ℚ)⌉₊ := by
        rw [Nat.lt_ceil, lt_div_iff₀ hnq, Nat.cast_sub hm]
        push_cast
        linarith
      omega

theorem reduceFrom_cons_of_ok {α β : Type} {callback : β → α → Nat → Except JSError β}
    {accumulator next : β} {item : α} {k : Nat} (rest : List α)
    (h : callback accumulator item k = .ok next) :
    reduceFrom callback accumulator (item :: rest) k = reduceFrom callback next rest (k + 1) := by
  simp [reduceFrom, h]

theorem chunkArray_example :
    chunkArray (.array ([1, 2, 3, 4, 5].map JSVal.ofRat)) (JSVal.ofRat 2)
      = .ok (denseChunks [[JSVal.ofRat 1, JSVal.ofRat 2], [JSVal.ofRat 3, JSVal.ofRat 4],
          [JSVal.ofRat 5]]) := by
  have k : ∀ i : Nat, i < 5 →
      toPropertyKey (mathFloor (jsDiv (.fin (i : ℕ)) (.fin 2))) = .index (i / 2) := by
    intro i hi
    have := chunkIndex_natCast i 2 (by decide) (by omega)
    simpa using this
  show reduceFrom (chunkCallback (.fin 2)) (denseChunks [])
    [JSVal.ofRat 1, JSVal.ofRat 2, JSVal.ofRat 3, JSVal.ofRat 4, JSVal.ofRat 5] 0 = _
  rw [reduceFrom_cons_of_ok _ (chunkCallback_new (.fin 2) [] (JSVal.ofRat 1) 0 (k 0 (by decide)))]
  show reduceFrom (chunkCallback (.fin 2)) (denseChunks ([] ++ [[JSVal.ofRat 1]]))
    [JSVal.ofRat 2, JSVal.ofRat 3, JSVal.ofRat 4, JSVal.ofRat 5] 1 = _
  rw [reduceFrom_cons_of_ok _
    (chunkCallback_last (.fin 2) [] [JSVal.ofRat 1] (JSVal.ofRat 2) 1 (k 1 (by decide)))]
  show reduceFrom (chunkCallback (.fin 2)) (denseChunks [[JSVal.ofRat 1, JSVal.ofRat 2]])
    [JSVal.ofRat 3, JSVal.ofRat 4, JSVal.ofRat 5] 2 = _
  rw [reduceFrom_cons_of_ok _
    (chunkCallback_new (.fin 2) [[JSVal.ofRat 1, JSVal.ofRat 2]] (JSVal.ofRat 3) 2
      (k 2 (by decide)))]
  show reduceFrom (chunkCallback (.fin 2))
    (denseChunks ([[JSVal.ofRat 1, JSVal.ofRat 2]] ++ [[JSVal.ofRat 3]]))
    [JSVal.ofRat 4, JSVal.ofRat 5] 3 = _
  rw [reduceFrom_cons_of_ok _
    (chunkCallback_last (.fin 2) [[JSVal.ofRat 1, JSVal.ofRat 2]] [JSVal.ofRat 3] (JSVal.ofRat 4) 3
      (k 3 (by decide)))]
  show reduceFrom (chunkCallback (.fin 2))
    (denseChunks [[JSVal.ofRat 1, JSVal.ofRat 2], [JSVal.ofRat 3, JSVal.ofRat 4]])
    [JSVal.ofRat 5] 4 = _
  rw [reduceFrom_cons_of_ok _
    (chunkCallback_new (.fin 2) [[JSVal.ofRat 1, JSVal.ofRat 2], [JSVal.ofRat 3, JSVal.ofRat 4]]
      (JSVal.ofRat 5) 4 (k 4 (by decide)))]
  rfl

/-- C4. For a positive integer `size`, the chunks of `chunkArray(arr, size)`
concatenated in order give `arr` back (the array has no hole and no other
property). Arrays have fewer than `2^32` elements. -/
theorem chunkArray_flatten (n : Nat) (hn : 0 < n) (s : List JSVal) (hs : s.length < 2 ^ 32) :
    ∃ chunks, chunkArray (.array s) (JSVal.ofRat n) = .ok (denseChunks chunks) ∧
      chunks.flatten = s := by
  obtain ⟨chunks, h, _, hflat⟩ := chunkArray_dense n hn s hs
  exact ⟨chunks, h, hflat⟩

theorem chunkArray_flatten_witness :
    (∃ chunks, chunkArray (.array ([1, 2, 3, 4, 5].map JSVal.ofRat)) (JSVal.ofRat (2 : ℕ))
        = .ok (denseChunks chunks) ∧
      chunks.flatten = [1, 2, 3, 4, 5].map JSVal.ofRat) ∧
    chunkArray (.array ([1, 2, 3, 4, 5].map JSVal.ofRat)) (JSVal.ofRat 2)
      = .ok (denseChunks [[JSVal.ofRat 1, JSVal.ofRat 2], [JSVal.ofRat 3, JSVal.ofRat 4],
          [JSVal.ofRat 5]]) :=
  ⟨chunkArray_flatten 2 (by decide) ([1, 2, 3, 4, 5].map JSVal.ofRat) (by simp),
    chunkArray_example⟩

/-- C5. For a positive integer `size` and an array of length `len`,
`chunkArray(arr, size)` has `ceil(len / size)` chunks, each of them non-empty and
of length at most `size`, and each but the last of length `size`. -/
theorem chunkArray_chunk_lengths (n : Nat) (hn : 0 < n) (s : List JSVal)
    (hs : s.length < 2 ^ 32) :
    ∃ chunks, chunkArray (.array s) (JSVal.ofRat n) = .ok (denseChunks chunks) ∧
      chunks.length = ⌈(s.length : ℚ) / (n : ℚ)⌉₊ ∧
      (∀ c ∈ chunks, 0 < c.length ∧ c.length ≤ n) ∧
      (∀ (j : Nat) (c : List JSVal), chunks.get? j = some c → j + 1 < chunks.length →
        c.length = n) := by
  obtain ⟨chunks, h, hinv, _⟩ := chunkArray_dense n hn s hs
  refine ⟨chunks, h, ?_, ?_, ?_⟩
  · rw [natCeil_div _ n hn]
    exact chunksInv_length n _ hn chunks hinv
  · rcases hinv with ⟨rfl, _⟩ | ⟨init, last, rfl, hfull, hpos, hle, _⟩
    · intro c hc
      simp at hc
    · intro c hc
      rcases List.mem_append.1 hc with hc | hc
      · rw [hfull c hc]
        exact ⟨hn, le_refl n⟩
      · rw [List.mem_singleton.1 hc]
        exact ⟨hpos, hle⟩
  · rcases hinv with ⟨rfl, _⟩ | ⟨init, last, rfl, hfull, _, _, _⟩
    · intro j c hc
      simp at hc
    · intro j c hc hj
      rw [List.length_append, List.length_singleton] at hj
      have hj' : j < init.length := by omega
      rw [List.get?_eq_getElem?, List.getElem?_append_left hj'] at hc
      exact hfull c (List.getElem?_mem hc)

theorem chunkArray_chunk_lengths_witness :
    ∃ chunks, chunkArray (.array ([1, 2, 3, 4, 5].map JSVal.ofRat)) (JSVal.ofRat (2 : ℕ))
        = .ok (denseChunks chunks) ∧
      chunks.length = ⌈(([1, 2, 3, 4, 5].map JSVal.ofRat).length : ℚ) / ((2 : ℕ) : ℚ)⌉₊ ∧
      (∀ c ∈ chunks, 0 < c.length ∧ c.length ≤ 2) ∧
      (∀ (j : Nat) (c : List JSVal), chunks.get? j = some c → j + 1 < chunks.length →
        c.length = 2) :=
  chunkArray_chunk_lengths 2 (by decide) ([1, 2, 3, 4, 5].map JSVal.ofRat) (by simp)

/-! ## `arrayDifference` -/

theorem includes_eq_any (b : List JSVal) (x : JSVal) :
    includes b x = b.any (fun y => sameValueZero y x) := by
  induction b with
  | nil => rfl
  | cons y b ih =>
    simp only [includes, List.any_cons, ih]
    cases sameValueZero y x <;> simp

theorem filterFrom_eq_filter {α : Type} (keep : α → Bool) (l : List α) :
    ∀ k : Nat, filterFrom (fun item _ => keep item) l k = l.filter keep := by
  induction l with
  | nil => intro k; rfl
  | cons x l ih =>
    intro k
    simp only [filterFrom, List.filter_cons, ih]

/-- C6. `arrayDifference(a, b)` is `a` filtered by non-membership in `b`
(membership as `includes` tests it): a subsequence of `a`, in the order and with
the multiplicities of `a`, whose elements are the elements of `a` that do not
occur in `b`; `arrayDifference([1,2,3],[2,4])` is `[1,3]`. -/
theorem arrayDifference_eq_filter (a b : List JSVal) :
    (∃ out, arrayDifference (.array a) (.array b) = .ok out ∧
      out = a.filter (fun x => !(b.any (fun y => sameValueZero y x))) ∧
      out.Sublist a ∧
      (∀ x, x ∈ out ↔ x ∈ a ∧ ¬ ∃ y ∈ b, sameValueZero y x = true) ∧
      (∀ keep : JSVal → Bool, (∀ x, keep x = true → ¬ ∃ y ∈ b, sameValueZero y x = true) →
        out.countP keep = a.countP keep)) ∧
    arrayDifference (.array ([1, 2, 3].map JSVal.ofRat)) (.array ([2, 4].map JSVal.ofRat))
      = .ok ([1, 3].map JSVal.ofRat) := by
  have hout : arrayDifference (.array a) (.array b)
      = .ok (a.filter (fun x => !(b.any (fun y => sameValueZero y x)))) := by
    simp only [arrayDifference, jsFilter]
    rw [filterFrom_eq_filter (fun item => !(includes b item)) a 0]
    simp only [includes_eq_any]
  refine ⟨⟨_, hout, rfl, List.filter_sublist a, ?_, ?_⟩, ?_⟩
  · intro x
    simp only [List.mem_filter, Bool.not_eq_true', ← Bool.not_eq_true, List.any_eq_true]
  · intro keep hkeep
    rw [List.countP_filter]
    apply List.countP_congr
    intro x _
    constructor
    · intro h
      simp only [Bool.and_eq_true] at h
      exact h.1
    · intro h
      have hb := hkeep x h
      simp only [Bool.and_eq_true, h, true_and, Bool.not_eq_true', ← Bool.not_eq_true,
        List.any_eq_true]
      exact hb
  · simp [arrayDifference, jsFilter, filterFrom, includes, sameValueZero, Prim.sameValueZero,
      JSNum.sameValueZero, JSNum.equal, JSVal.ofRat]

/-! ## `findMax` and `findMin` -/

theorem jsLe_refl (x : JSNum) (hx : x ≠ .nan) : jsLe x x = true := by
  cases x <;> simp_all [jsLe, jsLt, JSNum.toRat]

theorem jsLe_trans (x y z : JSNum) (hxy : jsLe x y = true) (hyz : jsLe y z = true) :
    jsLe x z = true := by
  cases x <;> cases y <;> cases z <;> simp_all [jsLe, jsLt, JSNum.toRat] <;> linarith

theorem jsLe_of_jsLt (x y : JSNum) (h : jsLt x y = true) : jsLe x y = true := by
  cases x <;> cases y <;> simp_all [jsLe, jsLt, JSNum.toRat] <;> linarith

theorem jsLe_of_not_jsLt (x y : JSNum) (hx : x ≠ .nan) (hy : y ≠ .nan)
    (h : jsLt x y = false) : jsLe y x = true := by
  cases x <;> cases y <;> simp_all [jsLe, jsLt, JSNum.toRat]

theorem ne_nan_of_jsLe (x y : JSNum) (h : jsLe x y = true) : x ≠ .nan ∧ y ≠ .nan := by
  cases x <;> cases y <;> simp_all [jsLe]

theorem eq_negInf_of_jsLe (x : JSNum) (h : jsLe x .negInf = true) : x = .negInf := by
  cases x <;> simp_all [jsLe, jsLt]

theorem eq_posInf_of_jsLe (x : JSNum) (h : jsLe .posInf x = true) : x = .posInf := by
  cases x <;> simp_all [jsLe, jsLt]

theorem mathMaxLoop_spec (rest : List JSNum) :
    ∀ highest : JSNum, highest ≠ .nan → (∀ x ∈ rest, x ≠ .nan) →
      (mathMaxLoop highest rest = highest ∨ mathMaxLoop highest rest ∈ rest) ∧
      jsGe (mathMaxLoop highest rest) highest = true ∧
      ∀ x ∈ rest, jsGe (mathMaxLoop highest rest) x = true := by
  induction rest with
  | nil =>
    intro highest hh _
    exact ⟨Or.inl rfl, jsLe_refl highest hh, by simp⟩
  | cons number rest ih =>
    intro highest hh hrest
    have hn : number ≠ .nan := hrest number (List.mem_cons_self _ _)
    have hrest' : ∀ x ∈ rest, x ≠ .nan := fun x hx => hrest x (List.mem_cons_of_mem _ hx)
    -- the value of `highest` after the two updates of the loop body
    obtain ⟨next, hnext, hmem, hge1, hge2⟩ :
        ∃ next, mathMaxLoop highest (number :: rest) = mathMaxLoop next rest ∧
          (next = highest ∨ next = number) ∧ jsLe highest next = true ∧
          jsLe number next = true := by
      simp only [mathMaxLoop, if_neg hn]
      refine ⟨_, rfl, ?_, ?_, ?_⟩
      · by_cases hz : number = .fin 0 ∧ highest = .negZero
        · rw [if_pos hz]
          right
          split <;> simp [hz.1]
        · rw [if_neg hz]
          split
          · exact Or.inr rfl
          · exact Or.inl rfl
      · by_cases hz : number = .fin 0 ∧ highest = .negZero
        · rw [if_pos hz, hz.1, hz.2]
          simp [jsGt, jsLt, jsLe, JSNum.toRat]
        · rw [if_neg hz]
          by_cases hgt : jsGt number highest = true
          · rw [if_pos hgt]
            exact jsLe_of_jsLt _ _ hgt
          · rw [if_neg hgt]
            exact jsLe_refl _ hh
      · by_cases hz : number = .fin 0 ∧ highest = .negZero
        · rw [if_pos hz, hz.1]
          simp [jsGt, jsLt, jsLe, JSNum.toRat]
        · rw [if_neg hz]
          by_cases hgt : jsGt number highest = true
          · rw [if_pos hgt]
            exact jsLe_refl _ hn
          · rw [if_neg hgt]
            exact jsLe_of_not_jsLt _ _ hh hn (by simpa [jsGt] using hgt)
    have hnext_nan : next ≠ .nan := (ne_nan_of_jsLe _ _ hge1).2
    obtain ⟨h1, h2, h3⟩ := ih next hnext_nan hrest'
    rw [hnext]
    refine ⟨?_, ?_, ?_⟩
    · rcases h1 with h1 | h1
      · rcases hmem with hm | hm
        · exact Or.inl (h1.trans hm)
        · exact Or.inr (by rw [h1, hm]; exact List.mem_cons_self _ _)
      · exact Or.inr (List.mem_cons_of_mem _ h1)
    · exact jsLe_trans _ _ _ hge1 h2
    · intro x hx
      rcases List.mem_cons.1 hx with rfl | hx
      · exact jsLe_trans _ _ _ hge2 h2
      · exact h3 x hx

theorem mathMinLoop_spec (rest : List JSNum) :
    ∀ lowest : JSNum, lowest ≠ .nan → (∀ x ∈ rest, x ≠ .nan) →
      (mathMinLoop lowest rest = lowest ∨ mathMinLoop lowest rest ∈ rest) ∧
      jsLe (mathMinLoop lowest rest) lowest = true ∧
      ∀ x ∈ rest, jsLe (mathMinLoop lowest rest) x = true := by
  induction rest with
  | nil =>
    intro lowest hl _
    exact ⟨Or.inl rfl, jsLe_refl lowest hl, by simp⟩
  | cons number rest ih =>
    intro lowest hl hrest
    have hn : number ≠ .nan := hrest number (List.mem_cons_self _ _)
    have hrest' : ∀ x ∈ rest, x ≠ .nan := fun x hx => hrest x (List.mem_cons_of_mem _ hx)
    -- the value of `lowest` after the two updates of the loop body
    obtain ⟨next, hnext, hmem, hle1, hle2⟩ :
        ∃ next, mathMinLoop lowest (number :: rest) = mathMinLoop next rest ∧
          (next = lowest ∨ next = number) ∧ jsLe next lowest = true ∧
          jsLe next number = true := by
      simp only [mathMinLoop, if_neg hn]
      refine ⟨_, rfl, ?_, ?_, ?_⟩
      · by_cases hz : number = .negZero ∧ lowest = .fin 0
        · rw [if_pos hz]
          right
          split <;> simp [hz.1]
        · rw [if_neg hz]
          split
          · exact Or.inr rfl
          · exact Or.inl rfl
      · by_cases hz : number = .negZero ∧ lowest = .fin 0
        · rw [if_pos hz, hz.1, hz.2]
          simp [jsLt, jsLe, JSNum.toRat]
        · rw [if_neg hz]
          by_cases hlt : jsLt number lowest = true
          · rw [if_pos hlt]
            exact jsLe_of_jsLt _ _ hlt
          · rw [if_neg hlt]
            exact jsLe_refl _ hl
      · by_cases hz : number = .negZero ∧ lowest = .fin 0
        · rw [if_pos hz, hz.1]
          simp [jsLt, jsLe, JSNum.toRat]
        · rw [if_neg hz]
          by_cases hlt : jsLt number lowest = true
          · rw [if_pos hlt]
            exact jsLe_refl _ hn
          · rw [if_neg hlt]
            exact jsLe_of_not_jsLt _ _ hn hl (by simpa using hlt)
    have hnext_nan : next ≠ .nan := (ne_nan_of_jsLe _ _ hle1).1
    obtain ⟨h1, h2, h3⟩ := ih next hnext_nan hrest'
    rw [hnext]
    refine ⟨?_, ?_, ?_⟩
    · rcases h1 with h1 | h1
      · rcases hmem with hm | hm
        · exact Or.inl (h1.trans hm)
        · exact Or.inr (by rw [h1, hm]; exact List.mem_cons_self _ _)
      · exact Or.inr (List.mem_cons_of_mem _ h1)
    · exact jsLe_trans _ _ _ h2 hle1
    · intro x hx
      rcases List.mem_cons.1 hx with rfl | hx
      · exact jsLe_trans _ _ _ h2 hle2
      · exact h3 x hx

theorem mathMaxLoop_of_nan (rest : List JSNum) (h : JSNum.nan ∈ rest) :
    ∀ highest : JSNum, mathMaxLoop highest rest = .nan := by
  induction rest with
  | nil => simp at h
  | cons number rest ih =>
    intro highest
    by_cases hn : number = .nan
    · simp only [mathMaxLoop, if_pos hn]
    · have hr : JSNum.nan ∈ rest := by
        rcases List.mem_cons.1 h with h | h
        · exact absurd h.symm hn
        · exact h
      simp only [mathMaxLoop, if_neg hn]
      exact ih hr _

/-- With `NaN` among its arguments `Math.max` returns `NaN`, which compares
`>=` to nothing: the ordered values of `findMax` are the numbers other than
`NaN`. -/
theorem findMax_of_nan (s : List JSNum) (h : JSNum.nan ∈ s) :
    findMax (.array s) = .ok .nan ∧ ∀ x, jsGe .nan x = false := by
  refine ⟨?_, ?_⟩
  · simp only [findMax, mathMax]
    rw [mathMaxLoop_of_nan s h]
  · intro x
    cases x <;> rfl

theorem reduceFrom_pure {α β : Type} (f : β → α → β) (l : List α) :
    ∀ (accumulator : β) (k : Nat),
      reduceFrom (fun acc item _ => .ok (f acc item)) accumulator l k
        = .ok (l.foldl f accumulator) := by
  induction l with
  | nil => intro accumulator k; rfl
  | cons x l ih =>
    intro accumulator k
    simp only [reduceFrom, List.foldl_cons]
    exact ih _ _

theorem sumArray_eq_foldl (s : List JSNum) :
    sumArray (.array s) = .ok (s.foldl jsAdd (.fin 0)) := by
  simp only [sumArray, jsReduce]
  exact reduceFrom_pure jsAdd s (.fin 0) 0

theorem foldl_jsAdd_fin (qs : List ℚ) :
    ∀ a : ℚ, (qs.map JSNum.fin).foldl jsAdd (.fin a) = .fin (qs.foldl (· + ·) a) := by
  induction qs with
  | nil => intro a; rfl
  | cons q qs ih =>
    intro a
    simp only [List.map_cons, List.foldl_cons]
    exact ih (a + q)

theorem foldl_add_eq_sum (qs : List ℚ) : ∀ a : ℚ, qs.foldl (· + ·) a = a + qs.sum := by
  induction qs with
  | nil => intro a; simp
  | cons q qs ih =>
    intro a
    simp only [List.foldl_cons, List.sum_cons, ih]
    ring

/-- C9. `sumArray(s)` is the left fold of `+` over `s` from `0`: `sumArray([])` is
`0`, `sumArray(s ++ [x])` is `sumArray(s) + x`, and on rational numbers the fold
is the exact sum; `sumArray([1,2,3,4])` is `10`. -/
theorem sumArray_is_left_fold (s : List JSNum) (x : JSNum) (qs : List ℚ) (q : ℚ) :
    sumArray (.array s) = .ok (s.foldl jsAdd (.fin 0)) ∧
    sumArray (.array []) = .ok (.fin 0) ∧
    (∃ t, sumArray (.array s) = .ok t ∧ sumArray (.array (s ++ [x])) = .ok (jsAdd t x)) ∧
    sumArray (.array (qs.map .fin)) = .ok (.fin (qs.foldl (· + ·) 0)) ∧
    sumArray (.array (qs.map .fin)) = .ok (.fin qs.sum) ∧
    sumArray (.array ((qs ++ [q]).map .fin)) = .ok (.fin (qs.sum + q)) ∧
    sumArray (.array [.fin 1, .fin 2, .fin 3, .fin 4]) = .ok (.fin 10) := by
  have hq : ∀ l : List ℚ, sumArray (.array (l.map .fin)) = .ok (.fin l.sum) := by
    intro l
    rw [sumArray_eq_foldl, foldl_jsAdd_fin, foldl_add_eq_sum, zero_add]
  refine ⟨sumArray_eq_foldl s, rfl, ⟨_, sumArray_eq_foldl s, ?_⟩, ?_, hq qs, ?_, ?_⟩
  · rw [sumArray_eq_foldl, List.foldl_append]
    rfl
  · rw [sumArray_eq_foldl, foldl_jsAdd_fin]
  · rw [hq]
    simp
  · have := hq [1, 2, 3, 4]
    norm_num at this
    exact this

theorem jsDiv_fin_natCast (a : ℚ) (n : Nat) (hn : 0 < n) :
    jsDiv (.fin a) (.fin n) = .fin (a / (n : ℚ)) := by
  have hn' : ¬ ((n : ℚ) = 0) := by exact_mod_cast hn.ne'
  by_cases ha : a = 0
  · have hn'' : ¬ ((n : ℚ) < 0) := by
      have : (0 : ℚ) ≤ n := Nat.cast_nonneg n
      linarith
    simp [jsDiv, JSNum.isInf, JSNum.isZero, JSNum.isNeg, JSNum.signedZero, ha, hn', hn'']
  · simp [jsDiv, JSNum.isInf, JSNum.isZero, JSNum.toRat, ha, hn']

theorem averageArray_eq (s : List JSNum) :
    ∃ t, sumArray (.array s) = .ok t ∧
      averageArray (.array s) = .ok (jsDiv t (.fin s.length)) := by
  refine ⟨_, sumArray_eq_foldl s, ?_⟩
  simp only [averageArray, sumArray_eq_foldl]
  rfl

/-- C10. On a non-empty array of rational numbers, `averageArray(s)` is
`sumArray(s) / length(s)`, the exact quotient of the sum by the length; the
average of `n >= 1` copies of `c` is `c`. -/
theorem averageArray_is_sum_div_length (qs : List ℚ) (hne : qs ≠ []) (c : ℚ) (n : Nat)
    (hn : 1 ≤ n) :
    (∃ t, sumArray (.array (qs.map .fin)) = .ok t ∧
      averageArray (.array (qs.map .fin)) = .ok (jsDiv t (.fin qs.length))) ∧
    averageArray (.array (qs.map .fin)) = .ok (.fin (qs.sum / (qs.length : ℚ))) ∧
    averageArray (.array (List.replicate n (.fin c))) = .ok (.fin c) := by
  have key : ∀ l : List ℚ, l ≠ [] →
      averageArray (.array (l.map .fin)) = .ok (.fin (l.sum / (l.length : ℚ))) := by
    intro l hl
    obtain ⟨t, ht, havg⟩ := averageArray_eq (l.map .fin)
    have hsum : sumArray (.array (l.map .fin)) = .ok (.fin l.sum) := by
      rw [sumArray_eq_foldl, foldl_jsAdd_fin, foldl_add_eq_sum, zero_add]
    have hlen : 0 < l.length := List.length_pos.2 hl
    rw [hsum] at ht
    cases ht
    rw [havg, List.length_map, jsDiv_fin_natCast _ _ hlen]
  refine ⟨?_, key qs hne, ?_⟩
  · have := averageArray_eq (qs.map .fin)
    rwa [List.length_map] at this
  · have hrep : List.replicate n (JSNum.fin c) = (List.replicate n c).map .fin := by
      rw [List.map_replicate]
    have hl : List.replicate n c ≠ [] := by
      intro h
      have := congrArg List.length h
      simp at this
      omega
    rw [hrep, key _ hl, List.sum_replicate, List.length_replicate]
    have hnq : (n : ℚ) ≠ 0 := by
      have : 0 < n := hn
      exact_mod_cast this.ne'
    congr 2
    rw [nsmul_eq_mul]
    field_simp

theorem averageArray_is_sum_div_length_witness :
    ((∃ t, sumArray (.array ([1, 2, 3, 4].map .fin)) = .ok t ∧
        averageArray (.array ([1, 2, 3, 4].map .fin))
          = .ok (jsDiv t (.fin ([1, 2, 3, 4] : List ℚ).length))) ∧
      averageArray (.array ([1, 2, 3, 4].map .fin))
        = .ok (.fin (([1, 2, 3, 4] : List ℚ).sum / (([1, 2, 3, 4] : List ℚ).length : ℚ))) ∧
      averageArray (.array (List.replicate 4 (.fin 5))) = .ok (.fin 5)) ∧
    averageArray (.array [.fin 5, .fin 5, .fin 5, .fin 5]) = .ok (.fin 5) ∧
    averageArray (.array [.fin 1, .fin 2, .fin 3, .fin 4]) = .ok (.fin (5 / 2)) := by
  have h := averageArray_is_sum_div_length [1, 2, 3, 4] (by simp) 5 4 (by decide)
  refine ⟨h, h.2.2, ?_⟩
  have h2 := h.2.1
  norm_num at h2
  exact h2

/-! ## Argument validation -/

/-- C12 at `arrayDifference(null, [])` and `arrayDifference([], null)`: the error
is the same whichever argument is not an array. -/
theorem arrayDifference_same_error :
    arrayDifference (.nonArray .null) (.array [])
      = .error (.typeError "Both inputs must be arrays") ∧
    arrayDifference (.array []) (.nonArray .null)
      = .error (.typeError "Both inputs must be arrays") ∧
    ¬ (arrayDifference (.nonArray .null) (.array [])
      ≠ arrayDifference (.array []) (.nonArray .null)) := by
  refine ⟨rfl, rfl, ?_⟩
  intro h
  exact h rfl

/-- C12, amended. `chunkArray` names the parameter that is wrong: the error for a
first argument that is not an array differs from the error for a `size` that is
not a number; `arrayDifference` throws one and the same error whichever of its
arguments is not an array. -/
theorem two_argument_errors (p : Prim) (items : List JSVal) (size : JSNum) (v : JSVal)
    (hv : isNumber v = false) (a b : Arg JSVal)
    (hab : a.isArray = false ∨ b.isArray = false) :
    chunkArray (.nonArray p) (.prim (.num size))
      = .error (.typeError "First parameter must be an array") ∧
    chunkArray (.array items) v = .error (.typeError "Second parameter must be a number") ∧
    chunkArray (.nonArray p) (.prim (.num size)) ≠ chunkArray (.array items) v ∧
    arrayDifference a b = .error (.typeError "Both inputs must be arrays") := by
  have h1 : chunkArray (.nonArray p) (.prim (.num size))
      = .error (.typeError "First parameter must be an array") := rfl
  have h2 : chunkArray (.array items) v
      = .error (.typeError "Second parameter must be a number") := by
    cases v with
    | arr r xs => rfl
    | prim q =>
      cases q <;> first | rfl | simp [isNumber] at hv
  refine ⟨h1, h2, ?_, ?_⟩
  · rw [h1, h2]
    simp
  · cases a <;> cases b <;> simp_all [arrayDifference, Arg.isArray]

theorem two_argument_errors_witness :
    chunkArray (.nonArray .null) (.prim (.num (.fin 2)))
      = .error (.typeError "First parameter must be an array") ∧
    chunkArray (.array [JSVal.ofRat 1]) (JSVal.ofStr "2")
      = .error (.typeError "Second parameter must be a number") ∧
    chunkArray (.nonArray .null) (.prim (.num (.fin 2)))
      ≠ chunkArray (.array [JSVal.ofRat 1]) (JSVal.ofStr "2") ∧
    arrayDifference (.array []) (.nonArray .undefined)
      = .error (.typeError "Both inputs must be arrays") :=
  two_argument_errors .null [JSVal.ofRat 1] (.fin 2) (JSVal.ofStr "2") rfl (.array [])
    (.nonArray .undefined) (Or.inr rfl)

/-- C15. `arrayDifference` is not symmetric: `arrayDifference([1,2,3],[2,4])` is
`[1,3]` and `arrayDifference([2,4],[1,2,3])` is `[4]`. -/
theorem arrayDifference_not_symmetric :
    arrayDifference (.array ([1, 2, 3].map JSVal.ofRat)) (.array ([2, 4].map JSVal.ofRat))
      = .ok ([1, 3].map JSVal.ofRat) ∧
    arrayDifference (.array ([2, 4].map JSVal.ofRat)) (.array ([1, 2, 3].map JSVal.ofRat))
      = .ok ([4].map JSVal.ofRat) ∧
    ∃ a b : List JSVal,
      arrayDifference (.array a) (.array b) ≠ arrayDifference (.array b) (.array a) := by
  have h1 : arrayDifference (.array ([1, 2, 3].map JSVal.ofRat))
      (.array ([2, 4].map JSVal.ofRat)) = .ok ([1, 3].map JSVal.ofRat) := by
    simp [arrayDifference, jsFilter, filterFrom, includes, sameValueZero, Prim.sameValueZero,
      JSNum.sameValueZero, JSNum.equal, JSVal.ofRat]
  have h2 : arrayDifference (.array ([2, 4].map JSVal.ofRat))
      (.array ([1, 2, 3].map JSVal.ofRat)) = .ok ([4].map JSVal.ofRat) := by
    simp [arrayDifference, jsFilter, filterFrom, includes, sameValueZero, Prim.sameValueZero,
      JSNum.sameValueZero, JSNum.equal, JSVal.ofRat]
  refine ⟨h1, h2, [1, 2, 3].map JSVal.ofRat, [2, 4].map JSVal.ofRat, ?_⟩
  rw [h1, h2]
  simp

/-- C18. On the empty array `findMax` and `findMin` return without failing:
`findMax([])` is `-Infinity` and `findMin([])` is `+Infinity`, so that
`findMin([]) > findMax([])`, and neither is an element of the input. -/
theorem findMax_findMin_empty :
    ∃ hi lo, findMax (.array []) = .ok hi ∧ findMin (.array []) = .ok lo ∧
      hi = .negInf ∧ lo = .posInf ∧ jsGt lo hi = true ∧
      hi ∉ ([] : List JSNum) ∧ lo ∉ ([] : List JSNum) :=
  ⟨.negInf, .posInf, rfl, rfl, rfl, rfl, rfl, List.not_mem_nil _, List.not_mem_nil _⟩

/-! ## Idempotence and order of `removeDuplicates` -/

theorem firstOccurrences_of_nodup (l : List JSVal) :
    ∀ seen : List Key, (l.map svzKey).Nodup → (∀ x ∈ l, svzKey x ∉ seen) →
      firstOccurrences seen l = l := by
  induction l with
  | nil => intro seen _ _; rfl
  | cons x l ih =>
    intro seen hnd hseen
    have hx : svzKey x ∉ seen := hseen x (List.mem_cons_self _ _)
    simp only [List.map_cons, List.nodup_cons] at hnd
    simp only [firstOccurrences, if_neg hx]
    congr 1
    apply ih _ hnd.2
    intro y hy hc
    rcases List.mem_cons.1 hc with h | h
    · exact hnd.1 (h ▸ List.mem_map_of_mem svzKey hy)
    · exact hseen y (List.mem_cons_of_mem _ hy) h

theorem canonicalizeKey_idem (v : JSVal) :
    canonicalizeKey (canonicalizeKey v) = canonicalizeKey v := by
  cases v with
  | arr r items => rfl
  | prim p =>
    cases p <;> try rfl
    rename_i n
    cases n <;> rfl

/-- C13. `removeDuplicates(removeDuplicates(s))` is `removeDuplicates(s)`. -/
theorem removeDuplicates_idempotent (s : List JSVal) :
    ∃ out, removeDuplicates (.array s) = .ok out ∧ removeDuplicates (.array out) = .ok out := by
  refine ⟨newSet [] s, rfl, ?_⟩
  have hnd : ((newSet [] s).map svzKey).Nodup := newSet_keys_nodup s [] (by simp)
  have hout : newSet [] s = (firstOccurrences [] s).map canonicalizeKey := by
    simpa using newSet_eq_firstOccurrences s []
  have h2 : newSet [] (newSet [] s) = (newSet [] s).map canonicalizeKey := by
    have := newSet_eq_firstOccurrences (newSet [] s) []
    rw [firstOccurrences_of_nodup _ _ hnd (by simp)] at this
    simpa using this
  simp only [removeDuplicates]
  congr 1
  rw [h2]
  conv_rhs => rw [hout]
  rw [hout, List.map_map]
  apply List.map_congr_left
  intro x _
  exact canonicalizeKey_idem x

theorem firstOccurrences_not_seen (t : List JSVal) :
    ∀ seen : List Key, ∀ y ∈ firstOccurrences seen t, svzKey y ∉ seen := by
  induction t with
  | nil => intro seen y h; simp [firstOccurrences] at h
  | cons x t ih =>
    intro seen y h
    simp only [firstOccurrences] at h
    split at h
    · exact ih _ y h
    · rename_i hx
      rcases List.mem_cons.1 h with rfl | h
      · exact hx
      · exact fun hc => ih _ y h (List.mem_cons_of_mem _ hc)

theorem firstOccurrences_sublist (t : List JSVal) :
    ∀ seen : List Key, (firstOccurrences seen t).Sublist t := by
  induction t with
  | nil => intro seen; exact List.Sublist.slnil
  | cons x t ih =>
    intro seen
    simp only [firstOccurrences]
    split
    · exact List.Sublist.cons _ (ih _)
    · exact List.Sublist.cons₂ _ (ih _)

theorem firstIndex_ge (p t : List JSVal) (v : JSVal) (h : svzKey v ∉ p.map svzKey) :
    p.length ≤ firstIndex (p ++ t) v := by
  have hfalse : ∀ e ∈ p, (fun e => sameValueZero e v) e = false := by
    intro e he
    cases hc : sameValueZero e v
    · exact hc
    · exact absurd ((any_sameValueZero_iff p v).1 (List.any_eq_true.2 ⟨e, he, hc⟩)) h
  unfold firstIndex
  rw [List.findIdx_append, List.findIdx_eq_length_of_false hfalse]
  simp

theorem firstIndex_self (p t : List JSVal) (x : JSVal) (h : svzKey x ∉ p.map svzKey) :
    firstIndex (p ++ x :: t) x = p.length := by
  have hfalse : ∀ e ∈ p, (fun e => sameValueZero e x) e = false := by
    intro e he
    cases hc : sameValueZero e x
    · exact hc
    · exact absurd ((any_sameValueZero_iff p x).1 (List.any_eq_true.2 ⟨e, he, hc⟩)) h
  have hself : sameValueZero x x = true := (sameValueZero_iff x x).2 rfl
  unfold firstIndex
  rw [List.findIdx_append, List.findIdx_eq_length_of_false hfalse, List.findIdx_cons, hself]
  simp

theorem firstOccurrences_pairwise (t : List JSVal) :
    ∀ (p : List JSVal) (seen : List Key), (∀ k, k ∈ seen ↔ k ∈ p.map svzKey) →
      (firstOccurrences seen t).Pairwise
        (fun a b => firstIndex (p ++ t) a < firstIndex (p ++ t) b) := by
  induction t with
  | nil => intro p seen _; exact List.Pairwise.nil
  | cons x t ih =>
    intro p seen hseen
    have happ : p ++ x :: t = (p ++ [x]) ++ t := by simp
    simp only [firstOccurrences]
    by_cases hx : svzKey x ∈ seen
    · rw [if_pos hx, happ]
      apply ih (p ++ [x]) seen
      intro k
      simp only [List.map_append, List.map_cons, List.map_nil, List.mem_append,
        List.mem_singleton, ← hseen k]
      constructor
      · exact Or.inl
      · rintro (h | rfl)
        · exact h
        · exact hx
    · rw [if_neg hx]
      have hxp : svzKey x ∉ p.map svzKey := fun hc => hx ((hseen _).2 hc)
      have hseen' : ∀ k, k ∈ svzKey x :: seen ↔ k ∈ (p ++ [x]).map svzKey := by
        intro k
        simp only [List.mem_cons, List.map_append, List.map_cons, List.map_nil,
          List.mem_append, ← hseen k, List.not_mem_nil, or_false]
        exact or_comm
      refine List.Pairwise.cons ?_ ?_
      · intro y hy
        rw [firstIndex_self p t x hxp, happ]
        have hy' := firstOccurrences_not_seen t _ y hy
        have hge := firstIndex_ge (p ++ [x]) t y (fun hc => hy' ((hseen' _).2 hc))
        simp only [List.length_append, List.length_singleton] at hge
        omega
      · rw [happ]
        exact ih (p ++ [x]) _ hseen'

theorem filterFrom_noEarlier (s : List JSVal) (t : List JSVal) :
    ∀ p : List JSVal, s = p ++ t →
      filterFrom (fun item i => !((s.take i).any (fun e => sameValueZero e item))) t p.length
        = firstOccurrences (p.map svzKey) t := by
  induction t with
  | nil => intro p _; rfl
  | cons x t ih =>
    intro p hs
    have hs' : s = (p ++ [x]) ++ t := by rw [hs]; simp
    have hrec := ih (p ++ [x]) hs'
    simp only [List.length_append, List.length_singleton] at hrec
    have htake : s.take p.length = p := by rw [hs]; simp
    simp only [filterFrom, firstOccurrences, htake]
    by_cases hmem : svzKey x ∈ p.map svzKey
    · have hany : p.any (fun e => sameValueZero e x) = true :=
        (any_sameValueZero_iff p x).2 hmem
      simp only [hany, Bool.not_true, Bool.false_eq_true, if_false, if_pos hmem]
      rw [hrec]
      apply firstOccurrences_congr
      intro k
      simp only [List.map_append, List.map_cons, List.map_nil, List.mem_append,
        List.mem_singleton]
      constructor
      · rintro (h | rfl)
        · exact h
        · exact hmem
      · exact Or.inl
    · have hany : p.any (fun e => sameValueZero e x) = false := by
        cases hc : p.any (fun e => sameValueZero e x)
        · rfl
        · exact absurd ((any_sameValueZero_iff p x).1 hc) hmem
      simp only [hany, Bool.not_false, if_true, if_neg hmem]
      rw [hrec]
      congr 1
      apply firstOccurrences_congr
      intro k
      simp [or_comm]

theorem firstIndex_canonicalizeKey (s : List JSVal) (v : JSVal) :
    firstIndex s (canonicalizeKey v) = firstIndex s v := by
  unfold firstIndex
  congr 1
  funext e
  cases h1 : sameValueZero e (canonicalizeKey v) <;> cases h2 : sameValueZero e v <;>
    first
    | rfl
    | (rw [sameValueZero_iff, svzKey_canonicalizeKey] at h1
       rw [← Bool.not_eq_true, sameValueZero_iff] at h2
       exact absurd h1 h2)
    | (rw [sameValueZero_iff] at h2
       rw [← Bool.not_eq_true, sameValueZero_iff, svzKey_canonicalizeKey] at h1
       exact absurd h2 h1)

/-- C14. `removeDuplicates(s)` keeps the element at each index for which no
earlier index holds an equal value, and nothing else: up to the sign of zero
(a `Set` stores `-0` as `+0`) it is a subsequence of `s`, and of two elements of
the result the one that comes first is the one whose first occurrence in `s`
comes first. -/
theorem removeDuplicates_first_occurrence_order (s : List JSVal) :
    ∃ kept out, removeDuplicates (.array s) = .ok out ∧
      kept = keepFirstOccurrences s ∧ kept.Sublist s ∧
      out = kept.map canonicalizeKey ∧
      List.Forall₂ (fun o k => sameValueZero o k = true) out kept ∧
      ((∀ x ∈ s, x ≠ JSVal.minusZero) → out = kept) ∧
      (∀ (i j : Nat) (x y : JSVal), out.get? i = some x → out.get? j = some y →
        (i < j ↔ firstIndex s x < firstIndex s y)) := by
  have hout : newSet [] s = (firstOccurrences [] s).map canonicalizeKey := by
    simpa using newSet_eq_firstOccurrences s []
  have hkept : firstOccurrences [] s = keepFirstOccurrences s := by
    have := filterFrom_noEarlier s s [] rfl
    simp only [List.length_nil, List.map_nil] at this
    exact this.symm
  have hpw : ((firstOccurrences [] s).map canonicalizeKey).Pairwise
      (fun a b => firstIndex s a < firstIndex s b) := by
    rw [List.pairwise_map]
    have := firstOccurrences_pairwise s [] [] (by simp)
    simp only [List.nil_append] at this
    refine this.imp ?_
    intro a b hab
    rw [firstIndex_canonicalizeKey, firstIndex_canonicalizeKey]
    exact hab
  refine ⟨firstOccurrences [] s, (firstOccurrences [] s).map canonicalizeKey, ?_, hkept,
    firstOccurrences_sublist s [], rfl, ?_, ?_, ?_⟩
  · simp only [removeDuplicates, hout]
  · rw [List.forall₂_map_left_iff, List.forall₂_same]
    intro x _
    rw [sameValueZero_iff, svzKey_canonicalizeKey]
  · intro hz
    calc (firstOccurrences [] s).map canonicalizeKey
        = (firstOccurrences [] s).map id :=
          List.map_congr_left (fun x hx =>
            canonicalizeKey_of_ne x (hz x (firstOccurrences_subset s [] x hx)))
      _ = firstOccurrences [] s := List.map_id _
  · intro i j x y hx hy
    rw [List.get?_eq_getElem?, List.getElem?_eq_some] at hx hy
    obtain ⟨hi, rfl⟩ := hx
    obtain ⟨hj, rfl⟩ := hy
    rw [List.pairwise_iff_getElem] at hpw
    constructor
    · intro hij
      exact hpw i j hi hj hij
    · intro hlt
      rcases Nat.lt_trichotomy i j with h | h | h
      · exact h
      · subst h
        exact absurd hlt (Nat.lt_irrefl _)
      · exact absurd (hpw j i hj hi h) (Nat.lt_asymm hlt)

/-! ## `getDaysDifference` -/

theorem jsSub_fin (a b : ℚ) : jsSub (.fin a) (.fin b) = .fin (a - b) := by
  unfold jsSub jsNeg
  by_cases hb : b = 0
  · simp [hb, jsAdd]
  · simp [hb, jsAdd, sub_eq_add_neg]

theorem jsDiv_fin_pos (a b : ℚ) (hb : 0 < b) : jsDiv (.fin a) (.fin b) = .fin (a / b) := by
  have hb0 : ¬ b = 0 := ne_of_gt hb
  have hbn : ¬ b < 0 := not_lt.2 hb.le
  by_cases ha : a = 0
  · simp [jsDiv, JSNum.isInf, JSNum.isZero, JSNum.isNeg, JSNum.signedZero, ha, hb0, hbn]
  · simp [jsDiv, JSNum.isInf, JSNum.isZero, JSNum.toRat, ha, hb0]

theorem getDaysDifference_valid (t1 t2 : Int) :
    getDaysDifference (.valid t1) (.valid t2)
      = .ok (.fin (|(t1 : ℚ) - (t2 : ℚ)| / 86400000)) := by
  have hc : ((1000 : ℚ) * 60 * 60 * 24) = 86400000 := by norm_num
  simp only [getDaysDifference, DateValue.toNumber, jsIsNaN, Bool.or_self, Bool.false_eq_true,
    if_false, jsSub_fin, hc]
  rw [jsDiv_fin_pos _ _ (by norm_num)]
  simp only [mathAbs]
  rw [abs_div]
  norm_num

/-- C17. For valid dates with time values `t1` and `t2` (milliseconds),
`getDaysDifference` is `|t1 - t2| / 86400000`: it is not negative, it is the
same in both orders, and it is zero exactly when the two instants are the same;
one day apart gives `1`. -/
theorem getDaysDifference_abs (t1 t2 : Int) :
    (∃ d : ℚ, getDaysDifference (.valid t1) (.valid t2) = .ok (.fin d) ∧
      d = |(t1 : ℚ) - (t2 : ℚ)| / 86400000 ∧ 0 ≤ d ∧
      getDaysDifference (.valid t2) (.valid t1) = getDaysDifference (.valid t1) (.valid t2) ∧
      (d = 0 ↔ t1 = t2)) ∧
    getDaysDifference (.valid 0) (.valid 86400000) = .ok (.fin 1) := by
  refine ⟨⟨_, getDaysDifference_valid t1 t2, rfl, ?_, ?_, ?_⟩, ?_⟩
  · positivity
  · rw [getDaysDifference_valid, getDaysDifference_valid, abs_sub_comm]
  · constructor
    · intro h
      have h2 : |(t1 : ℚ) - (t2 : ℚ)| = 0 := by
        rcases div_eq_zero_iff.1 h with h | h
        · exact h
        · norm_num at h
      have h3 : (t1 : ℚ) = (t2 : ℚ) := sub_eq_zero.1 (abs_eq_zero.1 h2)
      exact_mod_cast h3
    · rintro rfl
      simp
  · rw [getDaysDifference_valid]
    norm_num

/-! ## The average between the minimum and the maximum -/

theorem jsLe_fin (a b : ℚ) : jsLe (.fin a) (.fin b) = true ↔ a ≤ b := by
  simp [jsLe, jsLt, JSNum.toRat]

theorem sum_ge_of_forall_ge (qs : List ℚ) (m : ℚ) (h : ∀ x ∈ qs, m ≤ x) :
    (qs.length : ℚ) * m ≤ qs.sum := by
  induction qs with
  | nil => simp
  | cons q qs ih =>
    have hq := h q (List.mem_cons_self _ _)
    have := ih (fun x hx => h x (List.mem_cons_of_mem _ hx))
    simp only [List.length_cons, List.sum_cons, Nat.cast_add, Nat.cast_one]
    linarith

theorem sum_le_of_forall_le (qs : List ℚ) (m : ℚ) (h : ∀ x ∈ qs, x ≤ m) :
    qs.sum ≤ (qs.length : ℚ) * m := by
  induction qs with
  | nil => simp
  | cons q qs ih =>
    have hq := h q (List.mem_cons_self _ _)
    have := ih (fun x hx => h x (List.mem_cons_of_mem _ hx))
    simp only [List.length_cons, List.sum_cons, Nat.cast_add, Nat.cast_one]
    linarith

theorem eq_of_sum_eq_of_forall_ge (qs : List ℚ) (m : ℚ) (h : ∀ x ∈ qs, m ≤ x)
    (hsum : qs.sum = (qs.length : ℚ) * m) : ∀ x ∈ qs, x = m := by
  induction qs with
  | nil => intro x hx; simp at hx
  | cons q qs ih =>
    have hq := h q (List.mem_cons_self _ _)
    have hrest : ∀ x ∈ qs, m ≤ x := fun x hx => h x (List.mem_cons_of_mem _ hx)
    have hge := sum_ge_of_forall_ge qs m hrest
    simp only [List.length_cons, List.sum_cons, Nat.cast_add, Nat.cast_one] at hsum
    have hqm : q = m := by linarith
    have hs : qs.sum = (qs.length : ℚ) * m := by linarith
    intro x hx
    rcases List.mem_cons.1 hx with rfl | hx
    · exact hqm
    · exact ih hrest hs x hx

theorem eq_of_sum_eq_of_forall_le (qs : List ℚ) (m : ℚ) (h : ∀ x ∈ qs, x ≤ m)
    (hsum : qs.sum = (qs.length : ℚ) * m) : ∀ x ∈ qs, x = m := by
  induction qs with
  | nil => intro x hx; simp at hx
  | cons q qs ih =>
    have hq := h q (List.mem_cons_self _ _)
    have hrest : ∀ x ∈ qs, x ≤ m := fun x hx => h x (List.mem_cons_of_mem _ hx)
    have hle := sum_le_of_forall_le qs m hrest
    simp only [List.length_cons, List.sum_cons, Nat.cast_add, Nat.cast_one] at hsum
    have hqm : q = m := by linarith
    have hs : qs.sum = (qs.length : ℚ) * m := by linarith
    intro x hx
    rcases List.mem_cons.1 hx with rfl | hx
    · exact hqm
    · exact ih hrest hs x hx

theorem sum_of_forall_eq (qs : List ℚ) (m : ℚ) (h : ∀ x ∈ qs, x = m) :
    qs.sum = (qs.length : ℚ) * m := by
  induction qs with
  | nil => simp
  | cons q qs ih =>
    have hq := h q (List.mem_cons_self _ _)
    have := ih (fun x hx => h x (List.mem_cons_of_mem _ hx))
    simp only [List.length_cons, List.sum_cons, Nat.cast_add, Nat.cast_one]
    rw [hq, this]
    ring

theorem mathMax_mem_and_ge (s : List JSNum) (hne : s ≠ []) (hnan : ∀ x ∈ s, x ≠ .nan) :
    mathMax s ∈ s ∧ ∀ x ∈ s, jsLe x (mathMax s) = true := by
  obtain ⟨h1, _, h3⟩ := mathMaxLoop_spec s .negInf (by simp) hnan
  refine ⟨?_, h3⟩
  rcases h1 with h1 | h1
  · obtain ⟨y, hy⟩ := List.exists_mem_of_ne_nil s hne
    have hle := h3 y hy
    unfold jsGe at hle
    rw [h1] at hle
    have : y = .negInf := eq_negInf_of_jsLe y hle
    unfold mathMax
    rw [h1, ← this]
    exact hy
  · exact h1

theorem mathMin_mem_and_le (s : List JSNum) (hne : s ≠ []) (hnan : ∀ x ∈ s, x ≠ .nan) :
    mathMin s ∈ s ∧ ∀ x ∈ s, jsLe (mathMin s) x = true := by
  obtain ⟨h1, _, h3⟩ := mathMinLoop_spec s .posInf (by simp) hnan
  refine ⟨?_, h3⟩
  rcases h1 with h1 | h1
  · obtain ⟨y, hy⟩ := List.exists_mem_of_ne_nil s hne
    have hle := h3 y hy
    rw [h1] at hle
    have : y = .posInf := eq_posInf_of_jsLe y hle
    unfold mathMin
    rw [h1, ← this]
    exact hy
  · exact h1

theorem averageArray_fin (qs : List ℚ) (hne : qs ≠ []) :
    averageArray (.array (qs.map .fin)) = .ok (.fin (qs.sum / (qs.length : ℚ))) := by
  obtain ⟨t, ht, havg⟩ := averageArray_eq (qs.map .fin)
  have hsum : sumArray (.array (qs.map .fin)) = .ok (.fin qs.sum) := by
    rw [sumArray_eq_foldl, foldl_jsAdd_fin, foldl_add_eq_sum, zero_add]
  have hlen : 0 < qs.length := List.length_pos.2 hne
  rw [hsum] at ht
  cases ht
  rw [havg, List.length_map, jsDiv_fin_natCast _ _ hlen]

/-- C19. On a non-empty array of rational numbers,
`findMin(s) <= averageArray(s) <= findMax(s)`; the average is equal to the
minimum exactly when all the elements are equal, and likewise for the maximum,
so that both equalities hold exactly when all the elements are equal. -/
theorem average_between_min_and_max (qs : List ℚ) (hne : qs ≠ []) :
    ∃ lo avg hi : ℚ, findMin (.array (qs.map .fin)) = .ok (.fin lo) ∧
      averageArray (.array (qs.map .fin)) = .ok (.fin avg) ∧
      findMax (.array (qs.map .fin)) = .ok (.fin hi) ∧
      jsLe (.fin lo) (.fin avg) = true ∧ jsLe (.fin avg) (.fin hi) = true ∧
      lo ≤ avg ∧ avg ≤ hi ∧
      (lo = avg ↔ ∀ x ∈ qs, ∀ y ∈ qs, x = y) ∧
      (avg = hi ↔ ∀ x ∈ qs, ∀ y ∈ qs, x = y) ∧
      ((lo = avg ∧ avg = hi) ↔ ∀ x ∈ qs, ∀ y ∈ qs, x = y) := by
  have hmapne : qs.map JSNum.fin ≠ [] := by simpa using hne
  have hnan : ∀ x ∈ qs.map JSNum.fin, x ≠ .nan := by
    intro x hx
    obtain ⟨q, _, rfl⟩ := List.mem_map.1 hx
    simp
  obtain ⟨hminmem, hminle⟩ := mathMin_mem_and_le (qs.map .fin) hmapne hnan
  obtain ⟨hmaxmem, hmaxge⟩ := mathMax_mem_and_ge (qs.map .fin) hmapne hnan
  obtain ⟨lo, hlo, hloeq⟩ := List.mem_map.1 hminmem
  obtain ⟨hi, hhi, hhieq⟩ := List.mem_map.1 hmaxmem
  rw [← hloeq] at hminle
  rw [← hhieq] at hmaxge
  have hmin : findMin (.array (qs.map .fin)) = .ok (.fin lo) := by
    simp only [findMin, hloeq]
  have hmax : findMax (.array (qs.map .fin)) = .ok (.fin hi) := by
    simp only [findMax, hhieq]
  have hlole : ∀ x ∈ qs, lo ≤ x := fun x hx =>
    (jsLe_fin lo x).1 (hminle _ (List.mem_map_of_mem _ hx))
  have hhige : ∀ x ∈ qs, x ≤ hi := fun x hx =>
    (jsLe_fin x hi).1 (hmaxge _ (List.mem_map_of_mem _ hx))
  have havg := averageArray_fin qs hne
  have hlen : (0 : ℚ) < (qs.length : ℚ) := by
    have : 0 < qs.length := List.length_pos.2 hne
    exact_mod_cast this
  have h1 : lo ≤ qs.sum / (qs.length : ℚ) := by
    rw [le_div_iff₀ hlen]
    have := sum_ge_of_forall_ge qs lo hlole
    linarith
  have h2 : qs.sum / (qs.length : ℚ) ≤ hi := by
    rw [div_le_iff₀ hlen]
    have := sum_le_of_forall_le qs hi hhige
    linarith
  have hallLo : lo = qs.sum / (qs.length : ℚ) ↔ ∀ x ∈ qs, ∀ y ∈ qs, x = y := by
    constructor
    · intro h
      have hsum : qs.sum = (qs.length : ℚ) * lo := by
        rw [h]
        field_simp
      have hall := eq_of_sum_eq_of_forall_ge qs lo hlole hsum
      intro x hx y hy
      rw [hall x hx, hall y hy]
    · intro h
      have hsum := sum_of_forall_eq qs lo (fun x hx => h x hx lo hlo)
      rw [hsum]
      field_simp
  have hallHi : qs.sum / (qs.length : ℚ) = hi ↔ ∀ x ∈ qs, ∀ y ∈ qs, x = y := by
    constructor
    · intro h
      have hsum : qs.sum = (qs.length : ℚ) * hi := by
        rw [← h]
        field_simp
      have hall := eq_of_sum_eq_of_forall_le qs hi hhige hsum
      intro x hx y hy
      rw [hall x hx, hall y hy]
    · intro h
      have hsum := sum_of_forall_eq qs hi (fun x hx => h x hx hi hhi)
      rw [hsum]
      field_simp
  refine ⟨lo, qs.sum / (qs.length : ℚ), hi, hmin, havg, hmax, (jsLe_fin _ _).2 h1,
    (jsLe_fin _ _).2 h2, h1, h2, hallLo, hallHi, ?_⟩
  constructor
  · intro h
    exact hallLo.1 h.1
  · intro h
    exact ⟨hallLo.2 h, hallHi.2 h⟩

theorem average_between_min_and_max_witness :
    ∃ lo avg hi : ℚ, findMin (.array (([1, 2, 3, 4] : List ℚ).map .fin)) = .ok (.fin lo) ∧
      averageArray (.array (([1, 2, 3, 4] : List ℚ).map .fin)) = .ok (.fin avg) ∧
      findMax (.array (([1, 2, 3, 4] : List ℚ).map .fin)) = .ok (.fin hi) ∧
      jsLe (.fin lo) (.fin avg) = true ∧ jsLe (.fin avg) (.fin hi) = true ∧
      lo ≤ avg ∧ avg ≤ hi ∧
      (lo = avg ↔ ∀ x ∈ ([1, 2, 3, 4] : List ℚ), ∀ y ∈ ([1, 2, 3, 4] : List ℚ), x = y) ∧
      (avg = hi ↔ ∀ x ∈ ([1, 2, 3, 4] : List ℚ), ∀ y ∈ ([1, 2, 3, 4] : List ℚ), x = y) ∧
      ((lo = avg ∧ avg = hi) ↔
        ∀ x ∈ ([1, 2, 3, 4] : List ℚ), ∀ y ∈ ([1, 2, 3, 4] : List ℚ), x = y) :=
  average_between_min_and_max [1, 2, 3, 4] (by simp)

/-! ## `isPalindrome` and `reverseString` -/

theorem filter_lowerUnit (c : Nat) : (lowerUnit c).filter isLowerAlnum = (keptAs c).toList := by
  unfold lowerUnit keptAs isAsciiAlnum asciiLower isLowerAlnum
  by_cases h1 : 65 ≤ c ∧ c ≤ 90
  · have h2 : 97 ≤ c + 32 ∧ c + 32 ≤ 122 := by omega
    simp [h1, h2]
  · by_cases h2 : c = 0x212A
    · subst h2
      simp
    · by_cases h3 : c = 0x130
      · subst h3
        simp
      · by_cases h4 : (97 ≤ c ∧ c ≤ 122) ∨ (48 ≤ c ∧ c ≤ 57)
        · simp [h1, h2, h3, h4]
        · simp [h1, h2, h3, h4]

theorem removeNonAlnum_toLowerCase (str : List Nat) :
    removeNonAlnum (toLowerCase str) = lettersAndDigits str := by
  unfold removeNonAlnum toLowerCase lettersAndDigits
  induction str with
  | nil => rfl
  | cons c str ih =>
    simp only [List.flatMap_cons, List.filter_append, filter_lowerUnit, ih, List.filterMap_cons]
    cases keptAs c <;> rfl

theorem joinUnits_splitUnits_reverse (str : List Nat) :
    joinUnits (splitUnits str).reverse = str.reverse := by
  unfold joinUnits splitUnits
  induction str with
  | nil => rfl
  | cons c str ih =>
    simp only [List.map_cons, List.reverse_cons, List.flatten_append, ih]
    simp

theorem isPalindrome_eq (str : List Nat) :
    isPalindrome (.string str)
      = .ok (decide (lettersAndDigits str = (lettersAndDigits str).reverse)) := by
  simp only [isPalindrome, removeNonAlnum_toLowerCase, joinUnits_splitUnits_reverse]

/-- The Kelvin sign is put in lower case, as `k`, before the other characters
are removed: `isPalindrome` answers on `"\u212Aa"` as on `"ka"`. -/
theorem isPalindrome_kelvin :
    isPalindrome (.string [0x212A, 0x61]) = .ok false ∧
    isPalindrome (.string (utf16 "ka")) = .ok false :=
  ⟨rfl, rfl⟩

/-- C20. `reverseString(s)` has the length of `s` and at position `i` the code
unit that `s` has at position `length - 1 - i`; reversing twice gives `s` back,
and `isPalindrome` gives the same answer on `s` and on its reverse. -/
theorem reverseString_involutive (s : List Nat) :
    ∃ r, reverseString (.string s) = .ok r ∧ r.length = s.length ∧
      (∀ i, i < s.length → r.get? i = s.get? (s.length - 1 - i)) ∧
      reverseString (.string r) = .ok s ∧
      isPalindrome (.string r) = isPalindrome (.string s) := by
  have hrev : ∀ l : List Nat, reverseString (.string l) = .ok l.reverse := by
    intro l
    simp only [reverseString, joinUnits_splitUnits_reverse]
  refine ⟨s.reverse, hrev s, List.length_reverse s, ?_, ?_, ?_⟩
  · intro i hi
    rw [List.get?_eq_getElem?, List.get?_eq_getElem?, List.getElem?_reverse hi]
  · rw [hrev, List.reverse_reverse]
  · rw [isPalindrome_eq, isPalindrome_eq]
    unfold lettersAndDigits
    rw [List.filterMap_reverse, List.reverse_reverse]
    congr 1
    apply decide_eq_decide.2
    constructor
    · intro h
      exact h.symm
    · intro h
      exact h.symm

end Utilities
